import Mathlib

/-!
Verification of the Wind price-catalog builder (`scripts/build_items.py`).

The embedding models Python floats as exact rationals (`ℚ`), Python ints as
`ℤ`, dictionaries keyed by entity key as lists of rows updated in place
(unique keys are the documented data-model invariant), and the absent /
`None` price as `Option Int`.  Every definition mirrors the corresponding
Python function of the source; theorems at the end settle the frozen claims.
-/

namespace WindBuild

/-- A raw catalog record `{id, name, stackSize?, displayName?}`. -/
structure Item where
  id : Int
  name : String
  stackSize : Option Int
  displayName : Option String
deriving DecidableEq, Repr

/-- One output row of the generated item list (a JSON object in the source;
`price_note`/`icon_key` are `none` when the key is absent from the dict). -/
structure Row where
  id : Int
  key : String
  name_ru : String
  name_en : String
  stack_size : Int
  category : String
  obtainability : String
  trade_count : Int
  trade_label : String
  price_ars : Option Int
  price_note : Option String
  icon_key : Option String
deriving DecidableEq, Repr

/-- `EXCLUDE_EXACT` from the source. -/
def EXCLUDE_EXACT : List String :=
  ["air", "barrier", "bedrock", "chain_command_block", "command_block",
   "command_block_minecart", "debug_stick", "dirt_path", "end_portal_frame",
   "farmland", "frogspawn", "jigsaw", "knowledge_book", "light",
   "petrified_oak_slab", "reinforced_deepslate", "repeating_command_block",
   "spawner", "structure_block", "structure_void", "suspicious_gravel",
   "suspicious_sand", "trial_spawner"]

/-- `EXCLUDE_PREFIX` from the source (renamed for the Lean file). -/
def EXCLUDE_STARTS : List String := ["infested_"]

/-- `EXCLUDE_SUFFIX` from the source (renamed for the Lean file). -/
def EXCLUDE_ENDS : List String := ["_spawn_egg"]

/-- `KEYWORD_SETS["farmable"]`. -/
def farmableTokens : List String :=
  ["bamboo", "beetroot", "bone", "cactus", "carrot", "chicken", "clay",
   "cobblestone", "cod", "dried_kelp", "egg", "feather", "gunpowder",
   "honey", "kelp", "leather", "melon", "mutton", "nether_wart", "oak",
   "potato", "pumpkin", "porkchop", "rabbit_hide", "red_mushroom",
   "rotten_flesh", "salmon", "scute", "seeds", "slime", "snowball",
   "spider_eye", "spruce", "string", "sugar_cane", "totem", "wheat", "wool"]

/-- `KEYWORD_SETS["rare"]`. -/
def rareTokens : List String :=
  ["ancient_debris", "beacon", "dragon_egg", "echo_shard", "elytra",
   "enchanted_golden_apple", "heart_of_the_sea", "mace", "music_disc",
   "nether_star", "netherite", "ominous_trial_key", "recovery_compass",
   "sniffer_egg", "smithing_template", "trident", "wither_skeleton_skull"]

/-- `KEYWORD_SETS["redstone"]`. -/
def redstoneTokens : List String :=
  ["comparator", "dispenser", "dropper", "observer", "piston", "redstone",
   "repeater", "sculk_sensor", "target", "tripwire_hook"]

/-- `KEYWORD_SETS["food"]`. -/
def foodTokens : List String :=
  ["apple", "beef", "beetroot", "bread", "cake", "carrot", "chicken", "cod",
   "cookie", "golden_apple", "golden_carrot", "mushroom_stew", "mutton",
   "porkchop", "potato", "pumpkin_pie", "rabbit_stew", "salmon",
   "suspicious_stew"]

/-- `KEYWORD_SETS["combat"]`. -/
def combatTokens : List String :=
  ["arrow", "axe", "bow", "crossbow", "helmet", "chestplate", "leggings",
   "boots", "shield", "sword", "trident", "mace", "tipped_arrow",
   "spectral_arrow"]

/-- `KEYWORD_SETS["tool"]`. -/
def toolTokens : List String :=
  ["axe", "hoe", "pickaxe", "shears", "shovel", "fishing_rod",
   "flint_and_steel"]

/-- `FLOAT_OVERRIDES`: continuous unit-price anchors. -/
def FLOAT_OVERRIDES : List (String × ℚ) :=
  [("oak_log", 1/64), ("spruce_log", 1/64), ("birch_log", 1/64),
   ("jungle_log", 1/64), ("acacia_log", 1/64), ("dark_oak_log", 1/64),
   ("mangrove_log", 1/64), ("cherry_log", 1/64), ("pale_oak_log", 1/64),
   ("crimson_stem", 1/64), ("warped_stem", 1/64),
   ("stripped_oak_log", 1/64), ("stripped_spruce_log", 1/64),
   ("stripped_birch_log", 1/64), ("stripped_jungle_log", 1/64),
   ("stripped_acacia_log", 1/64), ("stripped_dark_oak_log", 1/64),
   ("stripped_mangrove_log", 1/64), ("stripped_cherry_log", 1/64),
   ("stripped_pale_oak_log", 1/64), ("stripped_crimson_stem", 1/64),
   ("stripped_warped_stem", 1/64), ("bamboo_block", 1/64),
   ("diamond_ore", 1), ("deepslate_diamond_ore", 1), ("diamond", 1),
   ("diamond_block", 9), ("raw_iron", 1/64), ("iron_ingot", 1/64),
   ("iron_block", 9/64), ("raw_copper", 1/64), ("copper_ingot", 1/64),
   ("copper_block", 9/64), ("raw_gold", 2/64), ("gold_ingot", 2/64),
   ("gold_block", 18/64), ("emerald", 0.55), ("emerald_block", 4.9),
   ("coal", 1/64), ("charcoal", 1/64), ("lapis_lazuli", 1/64),
   ("redstone", 1/64), ("quartz", 2/64), ("ancient_debris", 8),
   ("netherite_scrap", 5), ("netherite_ingot", 20), ("netherite_block", 180),
   ("totem_of_undying", 2), ("elytra", 180), ("shulker_shell", 12),
   ("nether_star", 70), ("beacon", 56), ("enchanted_golden_apple", 220),
   ("trident", 35), ("dragon_egg", 500), ("dragon_head", 110),
   ("heart_of_the_sea", 30), ("nautilus_shell", 3), ("echo_shard", 8),
   ("disc_fragment_5", 4), ("recovery_compass", 30),
   ("bottle_o_enchanting", 2), ("enchanted_book", 6),
   ("ominous_trial_key", 14), ("wither_skeleton_skull", 7),
   ("ghast_tear", 2), ("blaze_rod", 0.5), ("ender_pearl", 0.6),
   ("gunpowder", 0.2), ("slime_ball", 0.35), ("golden_apple", 4),
   ("golden_carrot", 1)]

/-- `LIMITED_ITEMS`. -/
def LIMITED_ITEMS : List String :=
  ["dragon_egg", "elytra", "enchanted_golden_apple", "heart_of_the_sea",
   "nether_star", "ominous_trial_key", "sniffer_egg"]

/-- `INTEGER_OVERRIDES`: hard `(trade_count, price_ars)` rules. -/
def INTEGER_OVERRIDES : List (String × Int × Int) :=
  [("oak_log", 64, 1), ("spruce_log", 64, 1), ("birch_log", 64, 1),
   ("jungle_log", 64, 1), ("acacia_log", 64, 1), ("dark_oak_log", 64, 1),
   ("mangrove_log", 64, 1), ("cherry_log", 64, 1), ("pale_oak_log", 64, 1),
   ("crimson_stem", 64, 1), ("warped_stem", 64, 1), ("diamond_ore", 1, 1),
   ("deepslate_diamond_ore", 1, 1), ("diamond", 1, 1),
   ("totem_of_undying", 1, 2), ("golden_apple", 1, 4), ("ghast_tear", 1, 2),
   ("disc_fragment_5", 1, 4), ("ominous_trial_key", 1, 14),
   ("netherite_ingot", 1, 20), ("beacon", 1, 56), ("iron_ingot", 64, 1),
   ("bread", 64, 1), ("lapis_lazuli", 64, 1), ("redstone", 64, 1),
   ("coal", 64, 1), ("charcoal", 64, 1)]

/-- `ANTI_DUMP_MINIMUMS`: key ↦ `(trade_count, minimum price in ars)`. -/
def ANTI_DUMP_MINIMUMS : List (String × Int × Int) :=
  [("netherite_ingot", 1, 20), ("beacon", 1, 50), ("totem_of_undying", 1, 2),
   ("elytra", 1, 120), ("dragon_head", 1, 90), ("shulker_shell", 1, 10)]

/-- `PER_ITEM_TOKENS`. -/
def PER_ITEM_TOKENS : List String :=
  ["diamond", "netherite", "ancient_debris", "totem", "elytra", "trident",
   "shulker_shell", "nether_star", "beacon", "enchanted_golden_apple",
   "heart_of_the_sea", "nautilus_shell", "echo_shard", "recovery_compass",
   "dragon_egg", "dragon_head", "wither_skeleton_skull", "music_disc",
   "disc_fragment", "smithing_template", "mace", "ominous_trial_key",
   "ghast_tear", "golden_apple"]

/-- `COMPRESSION_RELATIONS`: `(resource_key, compressed_key, ratio)`. -/
def COMPRESSION_RELATIONS : List (String × String × ℚ) :=
  [("coal", "coal_block", 9), ("diamond", "diamond_block", 9),
   ("emerald", "emerald_block", 9), ("redstone", "redstone_block", 9),
   ("lapis_lazuli", "lapis_block", 9), ("quartz", "quartz_block", 9),
   ("iron_ingot", "iron_block", 9), ("gold_ingot", "gold_block", 9),
   ("copper_ingot", "copper_block", 9), ("raw_iron", "raw_iron_block", 9),
   ("raw_gold", "raw_gold_block", 9), ("raw_copper", "raw_copper_block", 9),
   ("netherite_ingot", "netherite_block", 9)]

/-- `ORE_FORTUNE_RELATIONS`: `ore_key ↦ (drop_key, multiplier)`, in the
source's insertion order. -/
def ORE_FORTUNE_RELATIONS : List (String × String × ℚ) :=
  [("coal_ore", "coal", 2.2), ("deepslate_coal_ore", "coal", 2.2),
   ("emerald_ore", "emerald", 2.2), ("deepslate_emerald_ore", "emerald", 2.2),
   ("iron_ore", "raw_iron", 2.2), ("deepslate_iron_ore", "raw_iron", 2.2),
   ("gold_ore", "raw_gold", 2.2), ("deepslate_gold_ore", "raw_gold", 2.2),
   ("copper_ore", "raw_copper", 2.2),
   ("deepslate_copper_ore", "raw_copper", 2.2),
   ("nether_quartz_ore", "quartz", 2.2), ("redstone_ore", "redstone", 9.9),
   ("deepslate_redstone_ore", "redstone", 9.9),
   ("lapis_ore", "lapis_lazuli", 14.3),
   ("deepslate_lapis_ore", "lapis_lazuli", 14.3),
   ("nether_gold_ore", "gold_nugget", 8.8)]

/-- `DEEPSLATE_PRICE_LINKS`: `(normal_key, deepslate_key)`. -/
def DEEPSLATE_PRICE_LINKS : List (String × String) :=
  [("coal_ore", "deepslate_coal_ore"), ("emerald_ore", "deepslate_emerald_ore"),
   ("iron_ore", "deepslate_iron_ore"), ("gold_ore", "deepslate_gold_ore"),
   ("copper_ore", "deepslate_copper_ore"),
   ("redstone_ore", "deepslate_redstone_ore"),
   ("lapis_ore", "deepslate_lapis_ore")]

/-- `UNDEFINED_PRICE_KEYS`. -/
def UNDEFINED_PRICE_KEYS : List String :=
  ["ghast_tear", "end_crystal", "dragon_egg", "enchanted_golden_apple"]

/-- `CUSTOM_ITEMS`: manually authored entities merged after pricing. -/
def CUSTOM_ITEMS : List Row :=
  [{ id := 200001, key := "alcoholic_drinks", name_ru := "Алкогольные напитки",
     name_en := "Alcoholic Drinks", stack_size := 1,
     category := "Кастомные предметы", obtainability := "Ограниченный",
     trade_count := 1, trade_label := "шт", price_ars := none,
     price_note := some "неопределенно", icon_key := none },
   { id := 200002, key := "cigarettes", name_ru := "Сигареты",
     name_en := "Cigarettes", stack_size := 1,
     category := "Кастомные предметы", obtainability := "Ограниченный",
     trade_count := 1, trade_label := "шт", price_ars := none,
     price_note := some "неопределенно", icon_key := none },
   { id := 200003, key := "crab_claw", name_ru := "Клешня краба",
     name_en := "Crab Claw", stack_size := 1,
     category := "Кастомные предметы", obtainability := "Ограниченный",
     trade_count := 1, trade_label := "шт", price_ars := none,
     price_note := some "неопределенно", icon_key := none }]

/-- One entry of `ENCHANTED_BOOK_VARIANTS`. -/
structure Variant where
  key : String
  name_ru : String
  name_en : String
  max_level : Nat
  tier : Int
  treasure : Bool
deriving DecidableEq, Repr

/-- `ENCHANTED_BOOK_VARIANTS` (tier defaults to 2, treasure to `False`). -/
def ENCHANTED_BOOK_VARIANTS : List Variant :=
  [⟨"protection", "Защита", "Protection", 4, 2, false⟩,
   ⟨"fire_protection", "Огнеупорность", "Fire Protection", 4, 2, false⟩,
   ⟨"blast_protection", "Взрывоустойчивость", "Blast Protection", 4, 2, false⟩,
   ⟨"projectile_protection", "Защита от снарядов", "Projectile Protection", 4, 2, false⟩,
   ⟨"feather_falling", "Невесомость", "Feather Falling", 4, 2, false⟩,
   ⟨"thorns", "Шипы", "Thorns", 3, 3, false⟩,
   ⟨"respiration", "Подводник", "Respiration", 3, 2, false⟩,
   ⟨"aqua_affinity", "Подводная спешка", "Aqua Affinity", 1, 2, false⟩,
   ⟨"depth_strider", "Подводная ходьба", "Depth Strider", 3, 2, false⟩,
   ⟨"frost_walker", "Ледоход", "Frost Walker", 2, 3, true⟩,
   ⟨"binding_curse", "Проклятие несъёмности", "Curse of Binding", 1, 2, true⟩,
   ⟨"soul_speed", "Скорость души", "Soul Speed", 3, 3, true⟩,
   ⟨"swift_sneak", "Проворство", "Swift Sneak", 3, 4, true⟩,
   ⟨"sharpness", "Острота", "Sharpness", 5, 3, false⟩,
   ⟨"smite", "Небесная кара", "Smite", 5, 2, false⟩,
   ⟨"bane_of_arthropods", "Бич членистоногих", "Bane of Arthropods", 5, 2, false⟩,
   ⟨"knockback", "Отдача", "Knockback", 2, 2, false⟩,
   ⟨"fire_aspect", "Заговор огня", "Fire Aspect", 2, 3, false⟩,
   ⟨"looting", "Добыча", "Looting", 3, 3, false⟩,
   ⟨"sweeping_edge", "Разящий клинок", "Sweeping Edge", 3, 2, false⟩,
   ⟨"efficiency", "Эффективность", "Efficiency", 5, 2, false⟩,
   ⟨"silk_touch", "Шёлковое касание", "Silk Touch", 1, 4, false⟩,
   ⟨"unbreaking", "Прочность", "Unbreaking", 3, 2, false⟩,
   ⟨"fortune", "Удача", "Fortune", 3, 4, false⟩,
   ⟨"power", "Сила", "Power", 5, 2, false⟩,
   ⟨"punch", "Отбрасывание", "Punch", 2, 2, false⟩,
   ⟨"flame", "Горящая стрела", "Flame", 1, 3, false⟩,
   ⟨"infinity", "Бесконечность", "Infinity", 1, 4, false⟩,
   ⟨"luck_of_the_sea", "Удача моря", "Luck of the Sea", 3, 3, false⟩,
   ⟨"lure", "Приманка", "Lure", 3, 2, false⟩,
   ⟨"loyalty", "Верность", "Loyalty", 3, 3, false⟩,
   ⟨"impaling", "Пронзатель", "Impaling", 5, 2, false⟩,
   ⟨"riptide", "Тягун", "Riptide", 3, 3, false⟩,
   ⟨"channeling", "Громовержец", "Channeling", 1, 4, false⟩,
   ⟨"multishot", "Тройной выстрел", "Multishot", 1, 3, false⟩,
   ⟨"piercing", "Пробивание", "Piercing", 4, 2, false⟩,
   ⟨"quick_charge", "Быстрая перезарядка", "Quick Charge", 3, 2, false⟩,
   ⟨"density", "Плотность", "Density", 5, 3, false⟩,
   ⟨"breach", "Пробой", "Breach", 4, 3, false⟩,
   ⟨"wind_burst", "Порыв ветра", "Wind Burst", 3, 4, false⟩,
   ⟨"mending", "Починка", "Mending", 1, 5, true⟩,
   ⟨"vanishing_curse", "Проклятие утраты", "Curse of Vanishing", 1, 2, true⟩]

/-- `ROMAN_LEVELS.get(level, str(level))`. -/
def romanLevel (n : Nat) : String :=
  match n with
  | 1 => "I"
  | 2 => "II"
  | 3 => "III"
  | 4 => "IV"
  | 5 => "V"
  | _ => toString n

/-- Python `token in name` (substring containment) over the characters. -/
def strContains (name tok : String) : Bool :=
  decide (tok.toList <:+: name.toList)

/-- `contains_token(name, tokens)`. -/
def contains_token (name : String) (tokens : List String) : Bool :=
  tokens.any (fun tok => strContains name tok)

/-- Python `name.startswith(s)`. -/
def strStarts (name s : String) : Bool :=
  s.toList.isPrefixOf name.toList

/-- Python `name.endswith(s)`. -/
def strEnds (name s : String) : Bool :=
  s.toList.isSuffixOf name.toList

/-- `is_survival_obtainable(name)`. -/
def is_survival_obtainable (name : String) : Bool :=
  if EXCLUDE_EXACT.contains name then false
  else if EXCLUDE_STARTS.any (fun s => strStarts name s) then false
  else if EXCLUDE_ENDS.any (fun s => strEnds name s) then false
  else true

/-- `classify(name)`: first matching token group wins. -/
def classify (name : String) : String :=
  if contains_token name ["ore", "ingot", "gem", "diamond", "emerald", "netherite"] then
    "Руды и ресурсы"
  else if contains_token name redstoneTokens then "Редстоун и механизмы"
  else if contains_token name combatTokens || contains_token name toolTokens then
    "Инструменты и бой"
  else if contains_token name foodTokens then "Еда и фермерство"
  else if contains_token name ["blaze", "ghast", "ender", "chorus", "nether", "wither"] then
    "Незер и Энд"
  else if contains_token name ["head", "shell", "totem", "star", "elytra", "disc"] then
    "Редкие трофеи"
  else if contains_token name
      ["stairs", "slab", "fence", "wall", "door", "trapdoor", "planks",
       "brick", "glass", "terracotta", "concrete", "carpet", "banner"] then
    "Строительные блоки"
  else "Блоки и предметы"

/-- `obtainability(name)`. -/
def obtainability (name : String) : String :=
  if LIMITED_ITEMS.contains name then "Ограниченный"
  else if contains_token name farmableTokens then "Фармится"
  else "Обычный"

/-- Python `str.title()` restricted to the ASCII snake-case keys the
pipeline feeds it: uppercase an alphabetic character that follows a
non-alphabetic one, lowercase the rest. -/
def titleChars : List Char → Bool → List Char
  | [], _ => []
  | c :: cs, prevAlpha =>
    (if c.isAlpha && !prevAlpha then c.toUpper else c.toLower) ::
      titleChars cs c.isAlpha

/-- `fallback_display_name(item_name)`. -/
def fallback_display_name (item_name : String) : String :=
  String.mk (titleChars (item_name.toList.map (fun c => if c = '_' then ' ' else c)) false)

/-- `pick_ru_name(item_name, en_display_name, ru_lang)`; the locale map is a
partial function from keys to display strings. -/
def pick_ru_name (item_name en_display_name : String)
    (ru_lang : String → Option String) : String :=
  match ru_lang ("item.minecraft." ++ item_name) with
  | some s => s
  | none =>
    match ru_lang ("block.minecraft." ++ item_name) with
    | some s => s
    | none => if en_display_name ≠ "" then en_display_name
              else fallback_display_name item_name

/-- `infer_price_float(item)`: the multiplicative heuristic model. -/
def infer_price_float (item : Item) : ℚ :=
  let name := item.name
  let stack_size := item.stackSize.getD 64
  match List.lookup name FLOAT_OVERRIDES with
  | some v => v
  | none =>
    let price : ℚ :=
      if stack_size ≥ 64 then 0.03 else if stack_size = 16 then 0.08 else 1.3
    let price := if contains_token name farmableTokens then price * 0.65 else price
    let price := if contains_token name redstoneTokens then price * 1.35 else price
    let price := if contains_token name foodTokens then price * 0.95 else price
    let price := if contains_token name rareTokens then price * 3.5 else price
    let price := if strContains name "ore" then price * 1.6 else price
    let price := if strContains name "deepslate_" then price * 1.12 else price
    let price := if strContains name "waxed_" || strContains name "oxidized_" then price * 1.2 else price
    let price := if strContains name "stairs" || strContains name "fence" || strContains name "trapdoor" then price * 1.15 else price
    let price := if strContains name "slab" then price * 0.9 else price
    let price := if strContains name "wall" then price * 1.08 else price
    let price := if strContains name "concrete_powder" then price * 0.95 else price
    let price := if strContains name "smithing_template" then price * 8 else price
    let price := if strContains name "banner_pattern" || strContains name "pottery_sherd" || strContains name "music_disc" then price * 4.2 else price
    let price := if strContains name "potion" || strContains name "lingering_potion" || strContains name "splash_potion" then price * 2.4 else price
    let price :=
      if strContains name "wooden_" then price * 0.6
      else if strContains name "stone_" then price * 0.75
      else if strContains name "iron_" then price * 0.8
      else if strContains name "golden_" then price * 1.2
      else if strContains name "diamond_" then price * 2.8
      else if strContains name "netherite_" then price * 4
      else if strContains name "chainmail_" then price * 1.8
      else price
    let price := if LIMITED_ITEMS.contains name then price * 1.8 else price
    let min_price : ℚ :=
      if stack_size ≥ 64 then 0.005 else if stack_size = 16 then 0.02 else 0.8
    let max_price : ℚ := 1200
    min (max price min_price) max_price

/-- `is_wood_bulk(name)`. -/
def is_wood_bulk (name : String) : Bool :=
  strEnds name "_log" || strEnds name "_stem" || strEnds name "_wood" ||
    strEnds name "_hyphae" || strEnds name "_planks"

/-- `should_sell_per_item(name, stack_size)`. -/
def should_sell_per_item (name : String) (stack_size : Int) : Bool :=
  if stack_size ≤ 1 then true else contains_token name PER_ITEM_TOKENS

/-- `trade_count_and_label(name, stack_size)`. -/
def trade_count_and_label (name : String) (stack_size : Int) : Int × String :=
  if stack_size ≤ 1 then (1, "шт")
  else if is_wood_bulk name || name == "bamboo_block" then (64, "стак")
  else if should_sell_per_item name stack_size then (1, "шт")
  else if stack_size ≥ 64 then (64, "стак")
  else (stack_size, toString stack_size ++ " шт")

/-- Python `int(·)`: truncation toward zero on an exact rational. -/
def pytrunc (v : ℚ) : Int :=
  if 0 ≤ v then ⌊v⌋ else ⌈v⌉

/-- `round_price(value)`: `max(1, int(value + 0.5))`. -/
def round_price (value : ℚ) : Int :=
  max 1 (pytrunc (value + 0.5))

/-- The `1e-9` guard inside `ceil_price`. -/
def EPS : ℚ := 1 / 1000000000

/-- `ceil_price(value)`: `max(1, math.ceil(value - 1e-9))`. -/
def ceil_price (value : ℚ) : Int :=
  max 1 ⌈value - EPS⌉

/-- `enchanted_book_price(level, tier, treasure)`. -/
def enchanted_book_price (level : Nat) (tier : Int) (treasure : Bool) : Int :=
  let level_factor : ℚ := 2.5 + (level * 1.5 : ℚ)
  let tier_factor : ℚ := 1 + ((max 1 tier : Int) - 1 : Int) * (0.22 : ℚ)
  let treasure_factor : ℚ := if treasure then 1.25 else 1
  round_price (level_factor * tier_factor * treasure_factor)

/-- The rows generated for one enchantment variant, starting at `nextId`. -/
def bookRows (v : Variant) (nextId : Int) : List Row :=
  (List.range v.max_level).map fun (i : Nat) =>
    { id := nextId + (i : Int),
      key := "enchanted_book_" ++ v.key ++ "_" ++ toString (i + 1),
      icon_key := some "enchanted_book",
      name_ru := "Зачарованная книга: " ++ v.name_ru ++ " " ++ romanLevel (i + 1),
      name_en := "Enchanted Book: " ++ v.name_en ++ " " ++ romanLevel (i + 1),
      stack_size := 1, category := "Зачарованные книги",
      obtainability := if v.treasure then "Ограниченный" else "Обычный",
      trade_count := 1, trade_label := "шт",
      price_ars := some (enchanted_book_price (i + 1) v.tier v.treasure),
      price_note := none }

/-- `build_enchanted_book_items`, threading the sequential id. -/
def buildBooksAux : List Variant → Int → List Row
  | [], _ => []
  | v :: vs, nextId =>
    bookRows v nextId ++ buildBooksAux vs (nextId + (v.max_level : Int))

/-- `build_enchanted_book_items(start_id=210000)`. -/
def build_enchanted_book_items : List Row :=
  buildBooksAux ENCHANTED_BOOK_VARIANTS 210000

/-- `infer_integer_offer(item)`: `(trade_count, trade_label, price_ars)`. -/
def infer_integer_offer (item : Item) : Int × String × Int :=
  match List.lookup item.name INTEGER_OVERRIDES with
  | some (tc, price_ars) =>
    (tc, if tc = 64 then "стак" else if tc = 1 then "шт" else toString tc ++ " шт",
     price_ars)
  | none =>
    let stack_size := item.stackSize.getD 64
    let (tc, lbl) := trade_count_and_label item.name stack_size
    (tc, lbl, round_price (infer_price_float item * tc))

/-- `by_key.get(k)`: the row of the working set carrying key `k`. -/
def lookupRow (rows : List Row) (k : String) : Option Row :=
  rows.find? (fun r => r.key == k)

/-- In-place assignment `row["price_ars"] = p` through the key dictionary. -/
def updPrice (rows : List Row) (k : String) (p : Int) : List Row :=
  rows.map (fun r => if r.key == k then { r with price_ars := some p } else r)

/-- `unit_price(row)` (the source computes it as a float). -/
def unit_price (r : Row) : ℚ :=
  ((r.price_ars.getD 0 : Int) : ℚ) / (r.trade_count : ℚ)

/-- One iteration of the compression pass of `stabilize_economy`. -/
def compStep (rows : List Row) (rel : String × String × ℚ) : List Row :=
  match lookupRow rows rel.1, lookupRow rows rel.2.1 with
  | some resource, some block =>
    updPrice rows rel.2.1
      (round_price (unit_price resource * rel.2.2 * (block.trade_count : ℚ)))
  | _, _ => rows

/-- One iteration of the Fortune yield-floor pass: `ensure_total_at_least`
applied to the ore with the expected drop value. -/
def oreStep (rows : List Row) (rel : String × String × ℚ) : List Row :=
  match lookupRow rows rel.2.1, lookupRow rows rel.1 with
  | some drop, some ore =>
    updPrice rows rel.1
      (max (ore.price_ars.getD 0)
        (ceil_price (unit_price drop * rel.2.2 * (ore.trade_count : ℚ))))
  | _, _ => rows

/-- One iteration of the deepslate tier-floor pass. -/
def deepStep (rows : List Row) (rel : String × String) : List Row :=
  match lookupRow rows rel.1, lookupRow rows rel.2 with
  | some normal, some deep =>
    updPrice rows rel.2
      (max (deep.price_ars.getD 0)
        (ceil_price ((normal.price_ars.getD 0 : Int) : ℚ)))
  | _, _ => rows

/-- `stabilize_economy` with explicit relation tables (used to state that the
result does not depend on their iteration order). -/
def stabilizeWith (comps ores : List (String × String × ℚ))
    (deeps : List (String × String)) (rows : List Row) : List Row :=
  deeps.foldl deepStep (ores.foldl oreStep (comps.foldl compStep rows))

/-- `stabilize_economy(rows)`: the three ordered stabilization passes. -/
def stabilize_economy (rows : List Row) : List Row :=
  stabilizeWith COMPRESSION_RELATIONS ORE_FORTUNE_RELATIONS
    DEEPSLATE_PRICE_LINKS rows

/-- One iteration of `enforce_antidumping`. -/
def dumpStep (rows : List Row) (e : String × Int × Int) : List Row :=
  match lookupRow rows e.1 with
  | none => rows
  | some row =>
    match row.price_ars with
    | none => rows
    | some p =>
      rows.map fun r =>
        if r.key == e.1 then
          { r with trade_count := e.2.1,
                   trade_label :=
                     if e.2.1 = 1 then "шт"
                     else if e.2.1 = 64 then "стак"
                     else toString e.2.1 ++ " шт",
                   price_ars := some (max p e.2.2) }
        else r

/-- `enforce_antidumping(rows)`. -/
def enforce_antidumping (rows : List Row) : List Row :=
  ANTI_DUMP_MINIMUMS.foldl dumpStep rows

/-- One iteration of `apply_undefined_prices`. -/
def undefStep (rows : List Row) (k : String) : List Row :=
  match lookupRow rows k with
  | none => rows
  | some _ =>
    rows.map fun r =>
      if r.key == k then
        { r with trade_count := 1, trade_label := "шт", price_ars := none,
                 price_note := some "неопределенно" }
      else r

/-- `apply_undefined_prices(rows)`. -/
def apply_undefined_prices (rows : List Row) : List Row :=
  UNDEFINED_PRICE_KEYS.foldl undefStep rows

/-- The per-item construction inside `main`'s loop. -/
def rowOfItem (item : Item) (ru_lang : String → Option String) : Row :=
  let offer := infer_integer_offer item
  { id := item.id,
    key := item.name,
    name_ru := pick_ru_name item.name (item.displayName.getD "") ru_lang,
    name_en := if item.displayName.getD "" ≠ "" then item.displayName.getD ""
               else fallback_display_name item.name,
    stack_size := item.stackSize.getD 64,
    category := classify item.name,
    obtainability := obtainability item.name,
    trade_count := offer.1,
    trade_label := offer.2.1,
    price_ars := some offer.2.2,
    price_note := none, icon_key := none }

/-- The eligible raw rows, before stabilization. -/
def rawRows (catalog : List Item) (ru_lang : String → Option String) : List Row :=
  (catalog.filter (fun item => is_survival_obtainable item.name)).map
    (fun item => rowOfItem item ru_lang)

/-- The working set after stabilization, anti-dumping and undefined-price
forcing — `out_items` just before the merge step of `main`. -/
def pricedRows (catalog : List Item) (ru_lang : String → Option String) : List Row :=
  apply_undefined_prices (enforce_antidumping (stabilize_economy (rawRows catalog ru_lang)))

/-- The merge loops of `main`: append each extra row unless its key is
already present. -/
def mergeNew (rows extra : List Row) : List Row :=
  extra.foldl
    (fun acc r => if (acc.map (fun x => x.key)).contains r.key then acc else acc ++ [r])
    rows

/-- The sort key comparison of `main`: ascending `(category, name_ru)`. -/
def rowLE (a b : Row) : Bool :=
  decide (a.category < b.category) ||
    (a.category == b.category && decide (a.name_ru ≤ b.name_ru))

/-- The pure core of `main`: filter, price, stabilize, enforce floors, force
undefined prices, merge synthetics, and sort. -/
def buildItems (catalog : List Item) (ru_lang : String → Option String) : List Row :=
  (mergeNew (mergeNew (pricedRows catalog ru_lang) CUSTOM_ITEMS)
      build_enchanted_book_items).mergeSort rowLE

/-! ### Frame and update infrastructure for the stabilization passes -/

/-- A row with its price removed: two rows are "shape equal" when they agree
on every field except `price_ars`. -/
def eraseP (r : Row) : Row :=
  { r with price_ars := none }

/-- Equality of every field except `price_ars`. -/
def sameShape (r r' : Row) : Prop :=
  eraseP r = eraseP r'

theorem sameShape_refl (r : Row) : sameShape r r := rfl

theorem sameShape_trans {a b c : Row} (h₁ : sameShape a b) (h₂ : sameShape b c) :
    sameShape a c :=
  h₁.trans h₂

theorem sameShape_key {a b : Row} (h : sameShape a b) : a.key = b.key := by
  have h2 := congrArg Row.key (show eraseP a = eraseP b from h)
  exact h2

theorem sameShape_trade_count {a b : Row} (h : sameShape a b) :
    a.trade_count = b.trade_count := by
  have h2 := congrArg Row.trade_count (show eraseP a = eraseP b from h)
  exact h2

theorem sameShape_setPrice (r : Row) (p : Int) :
    sameShape r { r with price_ars := some p } := rfl

/-- The working set of the pipeline has pairwise distinct keys (the data
model's uniqueness invariant; the source's `by_key` dictionary relies on it). -/
def keysNodup (rows : List Row) : Prop :=
  (rows.map (fun r => r.key)).Nodup

theorem lookupRow_map_keep (gg : Row → Row) (hkey : ∀ r, (gg r).key = r.key)
    (σ : List Row) (k : String) :
    lookupRow (σ.map gg) k = (lookupRow σ k).map gg := by
  unfold lookupRow
  rw [List.find?_map]
  have hpred : ((fun r => r.key == k) ∘ gg) = (fun r : Row => r.key == k) := by
    funext r
    simp [Function.comp, hkey]
  rw [hpred]

theorem keys_map_keep (gg : Row → Row) (hkey : ∀ r, (gg r).key = r.key)
    (σ : List Row) :
    (σ.map gg).map (fun r => r.key) = σ.map (fun r => r.key) := by
  rw [List.map_map]
  exact List.map_congr_left (fun r _ => hkey r)

theorem updPrice_key_fun (k : String) (p : Int) (r : Row) :
    ((fun r => if r.key == k then { r with price_ars := some p } else r) r).key
      = r.key := by
  by_cases h : r.key == k <;> simp [h]

theorem keys_updPrice (σ : List Row) (k : String) (p : Int) :
    (updPrice σ k p).map (fun r => r.key) = σ.map (fun r => r.key) :=
  keys_map_keep _ (updPrice_key_fun k p) σ

theorem lookupRow_cons (a : Row) (t : List Row) (k : String) :
    lookupRow (a :: t) k
      = if a.key == k then some a else lookupRow t k := by
  by_cases h : (a.key == k) = true
  · rw [if_pos h]
    exact List.find?_cons_of_pos t h
  · rw [if_neg h]
    exact List.find?_cons_of_neg t h

theorem lookupRow_found_key {σ : List Row} {k : String} {r : Row}
    (hf : lookupRow σ k = some r) : r.key = k := by
  have h2 := List.find?_some
    (show List.find? (fun x => x.key == k) σ = some r from hf)
  simpa [beq_iff_eq] using h2

theorem lookupRow_updPrice_ne {σ : List Row} {k k' : String} (p : Int)
    (h : k' ≠ k) :
    lookupRow (updPrice σ k p) k' = lookupRow σ k' := by
  unfold updPrice
  rw [lookupRow_map_keep _ (updPrice_key_fun k p)]
  cases hf : lookupRow σ k' with
  | none => rfl
  | some r =>
    have hk : r.key = k' := lookupRow_found_key hf
    simp [hk, h]

theorem lookupRow_updPrice_self {σ : List Row} (k : String) (p : Int) :
    lookupRow (updPrice σ k p) k
      = (lookupRow σ k).map (fun r => { r with price_ars := some p }) := by
  unfold updPrice
  rw [lookupRow_map_keep _ (updPrice_key_fun k p)]
  cases hf : lookupRow σ k with
  | none => rfl
  | some r =>
    have hk : r.key = k := lookupRow_found_key hf
    simp [hk]

theorem updPrice_of_not_mem {σ : List Row} {k : String} (p : Int)
    (h : k ∉ σ.map (fun r => r.key)) : updPrice σ k p = σ := by
  induction σ with
  | nil => rfl
  | cons a t ih =>
    simp only [List.map_cons, List.mem_cons, not_or] at h
    have ha : (a.key == k) = false := by
      simp only [beq_eq_false_iff_ne, ne_eq]
      exact fun hh => h.1 hh.symm
    simp only [updPrice, List.map_cons] at ih ⊢
    rw [ha]
    simp only [Bool.false_eq_true, if_false]
    rw [ih h.2]

theorem updPrice_eq_self {σ : List Row} {k : String} {p : Int} {r : Row}
    (hnd : keysNodup σ) (hf : lookupRow σ k = some r)
    (hp : r.price_ars = some p) : updPrice σ k p = σ := by
  induction σ with
  | nil => simp [lookupRow] at hf
  | cons a t ih =>
    rw [lookupRow_cons] at hf
    by_cases ha : (a.key == k) = true
    · rw [if_pos ha] at hf
      obtain rfl : a = r := by injection hf
      have hk : a.key = k := by simpa [beq_iff_eq] using ha
      have hnotin : k ∉ t.map (fun r => r.key) := by
        have := (List.nodup_cons.mp hnd).1
        simpa [hk] using this
      simp only [updPrice, List.map_cons]
      rw [ha]
      simp only [if_true]
      have ht : updPrice t k p = t := updPrice_of_not_mem p hnotin
      simp only [updPrice] at ht
      rw [ht]
      congr 1
      cases a
      simp_all
    · rw [if_neg ha] at hf
      have hnd' : keysNodup t := (List.nodup_cons.mp hnd).2
      simp only [updPrice, List.map_cons]
      rw [eq_false_of_ne_true ha]
      simp only [Bool.false_eq_true, if_false]
      have := ih hnd' hf
      simp only [updPrice] at this
      rw [this]

theorem updPrice_comm {σ : List Row} {k k' : String} (p p' : Int)
    (h : k ≠ k') :
    updPrice (updPrice σ k p) k' p' = updPrice (updPrice σ k' p') k p := by
  unfold updPrice
  rw [List.map_map, List.map_map]
  apply List.map_congr_left
  intro r _
  simp only [Function.comp]
  by_cases h1 : (r.key == k) = true <;> by_cases h2 : (r.key == k') = true
  · exfalso
    apply h
    simp only [beq_iff_eq] at h1 h2
    rw [← h1, h2]
  · simp [h1, h2]
  · simp [h1, h2]
  · simp [h1, h2]

theorem shape_forall₂_map (σ : List Row) (gg : Row → Row)
    (h : ∀ r, sameShape r (gg r)) : List.Forall₂ sameShape σ (σ.map gg) := by
  induction σ with
  | nil => exact List.Forall₂.nil
  | cons a t ih => exact List.Forall₂.cons (h a) ih

theorem shape_forall₂_refl (σ : List Row) : List.Forall₂ sameShape σ σ :=
  List.forall₂_same.mpr (fun r _ => sameShape_refl r)

theorem shape_forall₂_trans {a b c : List Row}
    (h₁ : List.Forall₂ sameShape a b) (h₂ : List.Forall₂ sameShape b c) :
    List.Forall₂ sameShape a c := by
  induction h₁ generalizing c with
  | nil => cases h₂; exact List.Forall₂.nil
  | cons hr _ ih =>
    cases h₂ with
    | cons hr' htl' => exact List.Forall₂.cons (sameShape_trans hr hr') (ih htl')

theorem shape_updPrice (σ : List Row) (k : String) (p : Int) :
    List.Forall₂ sameShape σ (updPrice σ k p) := by
  apply shape_forall₂_map
  intro r
  by_cases h : r.key == k <;> simp [h, sameShape_refl, sameShape_setPrice]

/-- `find?` through a `Forall₂ sameShape` relation: related states hold
shape-related rows under the same key. -/
theorem lookup_shape {σ σ' : List Row} (h : List.Forall₂ sameShape σ σ')
    (k : String) {r : Row} (hf : lookupRow σ k = some r) :
    ∃ r', lookupRow σ' k = some r' ∧ sameShape r r' := by
  induction h with
  | nil => simp [lookupRow] at hf
  | cons hr htl ih =>
    rename_i a b t t'
    rw [lookupRow_cons] at hf
    by_cases ha : (a.key == k) = true
    · have hb : (b.key == k) = true := by
        rw [← sameShape_key hr]; exact ha
      rw [if_pos ha] at hf
      obtain rfl : a = r := by injection hf
      exact ⟨b, by rw [lookupRow_cons, if_pos hb], hr⟩
    · have hb : ¬ (b.key == k) = true := by
        rw [← sameShape_key hr]; exact ha
      rw [if_neg ha] at hf
      obtain ⟨r', hr', hs⟩ := ih hf
      exact ⟨r', by rw [lookupRow_cons, if_neg hb]; exact hr', hs⟩

/-! ### Generic single-target relation pass -/

section RelPass

variable {ρ : Type} (srcOf tgtOf : ρ → String) (valOf : ρ → Row → Row → Int)

/-- The common shape of one iteration of each stabilization pass: look up a
source row and a target row, and assign a recomputed price to the target. -/
def relStep (σ : List Row) (r : ρ) : List Row :=
  match lookupRow σ (srcOf r), lookupRow σ (tgtOf r) with
  | some s, some t => updPrice σ (tgtOf r) (valOf r s t)
  | _, _ => σ

/-- A whole pass: fold `relStep` over the declared relation list. -/
def relPass (rels : List ρ) (σ : List Row) : List Row :=
  rels.foldl (relStep srcOf tgtOf valOf) σ

theorem relPass_nil (σ : List Row) : relPass srcOf tgtOf valOf [] σ = σ := rfl

theorem relPass_cons (hd : ρ) (tl : List ρ) (σ : List Row) :
    relPass srcOf tgtOf valOf (hd :: tl) σ
      = relPass srcOf tgtOf valOf tl (relStep srcOf tgtOf valOf σ hd) := rfl

theorem relStep_lookup_ne {σ : List Row} {r : ρ} {k : String}
    (h : tgtOf r ≠ k) :
    lookupRow (relStep srcOf tgtOf valOf σ r) k = lookupRow σ k := by
  unfold relStep
  rcases lookupRow σ (srcOf r) with _ | s
  · rfl
  rcases lookupRow σ (tgtOf r) with _ | t
  · rfl
  exact lookupRow_updPrice_ne _ (Ne.symm h)

theorem keys_relStep (σ : List Row) (r : ρ) :
    (relStep srcOf tgtOf valOf σ r).map (fun x => x.key)
      = σ.map (fun x => x.key) := by
  unfold relStep
  rcases lookupRow σ (srcOf r) with _ | s
  · rfl
  rcases lookupRow σ (tgtOf r) with _ | t
  · rfl
  exact keys_updPrice σ _ _

theorem shape_relStep (σ : List Row) (r : ρ) :
    List.Forall₂ sameShape σ (relStep srcOf tgtOf valOf σ r) := by
  unfold relStep
  rcases lookupRow σ (srcOf r) with _ | s
  · exact shape_forall₂_refl σ
  rcases lookupRow σ (tgtOf r) with _ | t
  · exact shape_forall₂_refl σ
  exact shape_updPrice σ _ _

theorem relPass_lookup_stable {rels : List ρ} {σ : List Row} {k : String}
    (h : ∀ r ∈ rels, tgtOf r ≠ k) :
    lookupRow (relPass srcOf tgtOf valOf rels σ) k = lookupRow σ k := by
  induction rels generalizing σ with
  | nil => rfl
  | cons hd tl ih =>
    rw [relPass_cons]
    rw [ih (fun r hr => h r (List.mem_cons_of_mem hd hr))]
    exact relStep_lookup_ne srcOf tgtOf valOf (h hd (List.mem_cons_self hd tl))

theorem keys_relPass (rels : List ρ) (σ : List Row) :
    (relPass srcOf tgtOf valOf rels σ).map (fun x => x.key)
      = σ.map (fun x => x.key) := by
  induction rels generalizing σ with
  | nil => rfl
  | cons hd tl ih =>
    rw [relPass_cons, ih, keys_relStep]

theorem shape_relPass (rels : List ρ) (σ : List Row) :
    List.Forall₂ sameShape σ (relPass srcOf tgtOf valOf rels σ) := by
  induction rels generalizing σ with
  | nil => exact shape_forall₂_refl σ
  | cons hd tl ih =>
    rw [relPass_cons]
    exact shape_forall₂_trans (shape_relStep srcOf tgtOf valOf σ hd) (ih _)

theorem relPass_spec {rels : List ρ}
    (hnd : (rels.map tgtOf).Nodup)
    (hsrc : ∀ x ∈ rels, ∀ y ∈ rels, srcOf x ≠ tgtOf y)
    {σ : List Row} {r : ρ} (hr : r ∈ rels) {s t : Row}
    (hs : lookupRow σ (srcOf r) = some s)
    (ht : lookupRow σ (tgtOf r) = some t) :
    lookupRow (relPass srcOf tgtOf valOf rels σ) (srcOf r) = some s ∧
      lookupRow (relPass srcOf tgtOf valOf rels σ) (tgtOf r)
        = some { t with price_ars := some (valOf r s t) } := by
  induction rels generalizing σ with
  | nil => cases hr
  | cons hd tl ih =>
    rw [List.map_cons, List.nodup_cons] at hnd
    rw [relPass_cons]
    rcases List.mem_cons.mp hr with rfl | hrtl
    · -- the head relation fires, and the rest of the pass leaves it alone
      have hstep : relStep srcOf tgtOf valOf σ r
          = updPrice σ (tgtOf r) (valOf r s t) := by
        unfold relStep
        rw [hs, ht]
      have hne_st : srcOf r ≠ tgtOf r :=
        hsrc r (List.mem_cons_self r tl) r (List.mem_cons_self r tl)
      have htl_src : ∀ y ∈ tl, tgtOf y ≠ srcOf r := fun y hy =>
        Ne.symm (hsrc r (List.mem_cons_self r tl) y (List.mem_cons_of_mem r hy))
      have htl_tgt : ∀ y ∈ tl, tgtOf y ≠ tgtOf r := by
        intro y hy heq
        exact hnd.1 (heq ▸ List.mem_map_of_mem tgtOf hy)
      constructor
      · rw [relPass_lookup_stable srcOf tgtOf valOf htl_src, hstep,
          lookupRow_updPrice_ne _ hne_st, hs]
      · rw [relPass_lookup_stable srcOf tgtOf valOf htl_tgt, hstep,
          lookupRow_updPrice_self, ht]
        rfl
    · -- the head step does not disturb the lookups of a later relation
      have h1 : tgtOf hd ≠ srcOf r :=
        Ne.symm (hsrc r (List.mem_cons_of_mem hd hrtl) hd (List.mem_cons_self hd tl))
      have h2 : tgtOf hd ≠ tgtOf r := by
        intro heq
        exact hnd.1 (heq ▸ List.mem_map_of_mem tgtOf hrtl)
      have hs' : lookupRow (relStep srcOf tgtOf valOf σ hd) (srcOf r) = some s := by
        rw [relStep_lookup_ne srcOf tgtOf valOf h1]; exact hs
      have ht' : lookupRow (relStep srcOf tgtOf valOf σ hd) (tgtOf r) = some t := by
        rw [relStep_lookup_ne srcOf tgtOf valOf h2]; exact ht
      exact ih hnd.2
        (fun x hx y hy =>
          hsrc x (List.mem_cons_of_mem hd hx) y (List.mem_cons_of_mem hd hy))
        hrtl hs' ht'

theorem relStep_mono (r : ρ) {σ : List Row} {k : String} {t₀ : Row}
    (hg : ∀ r s t, t.price_ars.getD 0 ≤ valOf r s t)
    (h : lookupRow σ k = some t₀) :
    ∃ t', lookupRow (relStep srcOf tgtOf valOf σ r) k = some t' ∧
      sameShape t₀ t' ∧
      ∀ q, t₀.price_ars = some q → ∃ q', t'.price_ars = some q' ∧ q ≤ q' := by
  by_cases hk : tgtOf r = k
  · subst hk
    unfold relStep
    rcases lookupRow σ (srcOf r) with _ | s
    · exact ⟨t₀, h, sameShape_refl t₀, fun q hq => ⟨q, hq, le_refl q⟩⟩
    cases hlt : lookupRow σ (tgtOf r) with
    | none => exact ⟨t₀, h, sameShape_refl t₀, fun q hq => ⟨q, hq, le_refl q⟩⟩
    | some t =>
      rw [h] at hlt
      injection hlt with hlt
      subst hlt
      refine ⟨{ t₀ with price_ars := some (valOf r s t₀) }, ?_, sameShape_setPrice t₀ _, ?_⟩
      · rw [lookupRow_updPrice_self, h]
        rfl
      · intro q hq
        refine ⟨valOf r s t₀, rfl, ?_⟩
        have h3 := hg r s t₀
        rw [hq] at h3
        simpa using h3
  · rw [relStep_lookup_ne srcOf tgtOf valOf hk] at *
    exact ⟨t₀, h, sameShape_refl t₀, fun q hq => ⟨q, hq, le_refl q⟩⟩

theorem relPass_mono {rels : List ρ} {σ : List Row} {k : String} {t₀ : Row}
    (hg : ∀ r s t, t.price_ars.getD 0 ≤ valOf r s t)
    (h : lookupRow σ k = some t₀) :
    ∃ t', lookupRow (relPass srcOf tgtOf valOf rels σ) k = some t' ∧
      sameShape t₀ t' ∧
      ∀ q, t₀.price_ars = some q → ∃ q', t'.price_ars = some q' ∧ q ≤ q' := by
  induction rels generalizing σ t₀ with
  | nil => exact ⟨t₀, h, sameShape_refl t₀, fun q hq => ⟨q, hq, le_refl q⟩⟩
  | cons hd tl ih =>
    obtain ⟨t₁, h₁, hs₁, hm₁⟩ := relStep_mono srcOf tgtOf valOf hd hg h
    obtain ⟨t₂, h₂, hs₂, hm₂⟩ := ih h₁
    refine ⟨t₂, ?_, sameShape_trans hs₁ hs₂, ?_⟩
    · rw [relPass_cons]
      exact h₂
    · intro q hq
      obtain ⟨q₁, hq₁, hle₁⟩ := hm₁ q hq
      obtain ⟨q₂, hq₂, hle₂⟩ := hm₂ q₁ hq₁
      exact ⟨q₂, hq₂, le_trans hle₁ hle₂⟩

theorem foldl_self {α β : Type*} {f : β → α → β} {b : β} {l : List α}
    (h : ∀ a ∈ l, f b a = b) : l.foldl f b = b := by
  induction l with
  | nil => rfl
  | cons hd tl ih =>
    rw [List.foldl_cons, h hd (List.mem_cons_self hd tl)]
    exact ih (fun a ha => h a (List.mem_cons_of_mem hd ha))

theorem relStep_eq_of_missing (r : ρ) {σ : List Row}
    (h : lookupRow σ (srcOf r) = none ∨ lookupRow σ (tgtOf r) = none) :
    relStep srcOf tgtOf valOf σ r = σ := by
  unfold relStep
  rcases h with h | h
  · rw [h]
  · rw [h]
    rcases lookupRow σ (srcOf r) with _ | s <;> rfl

theorem relStep_eq_of_found (r : ρ) {σ : List Row} {s t : Row}
    (hs : lookupRow σ (srcOf r) = some s)
    (ht : lookupRow σ (tgtOf r) = some t) :
    relStep srcOf tgtOf valOf σ r = updPrice σ (tgtOf r) (valOf r s t) := by
  unfold relStep
  rw [hs, ht]

theorem relStep_comm {σ : List Row} {x y : ρ}
    (hxy : x = y ∨ (tgtOf x ≠ tgtOf y ∧ srcOf x ≠ tgtOf y ∧ srcOf y ≠ tgtOf x)) :
    relStep srcOf tgtOf valOf (relStep srcOf tgtOf valOf σ x) y
      = relStep srcOf tgtOf valOf (relStep srcOf tgtOf valOf σ y) x := by
  rcases hxy with rfl | ⟨htt, hst, hts⟩
  · rfl
  have hys : lookupRow (relStep srcOf tgtOf valOf σ x) (srcOf y)
      = lookupRow σ (srcOf y) := relStep_lookup_ne srcOf tgtOf valOf (Ne.symm hts)
  have hyt : lookupRow (relStep srcOf tgtOf valOf σ x) (tgtOf y)
      = lookupRow σ (tgtOf y) := relStep_lookup_ne srcOf tgtOf valOf htt
  have hxs : lookupRow (relStep srcOf tgtOf valOf σ y) (srcOf x)
      = lookupRow σ (srcOf x) := relStep_lookup_ne srcOf tgtOf valOf (Ne.symm hst)
  have hxt : lookupRow (relStep srcOf tgtOf valOf σ y) (tgtOf x)
      = lookupRow σ (tgtOf x) := relStep_lookup_ne srcOf tgtOf valOf (Ne.symm htt)
  by_cases hx : lookupRow σ (srcOf x) = none ∨ lookupRow σ (tgtOf x) = none
  · have ex : relStep srcOf tgtOf valOf σ x = σ :=
      relStep_eq_of_missing srcOf tgtOf valOf x hx
    have ex' : relStep srcOf tgtOf valOf (relStep srcOf tgtOf valOf σ y) x
        = relStep srcOf tgtOf valOf σ y := by
      apply relStep_eq_of_missing
      rcases hx with h | h
      · exact Or.inl (hxs.trans h)
      · exact Or.inr (hxt.trans h)
    rw [ex, ex']
  · by_cases hy : lookupRow σ (srcOf y) = none ∨ lookupRow σ (tgtOf y) = none
    · have ey : relStep srcOf tgtOf valOf σ y = σ :=
        relStep_eq_of_missing srcOf tgtOf valOf y hy
      have ey' : relStep srcOf tgtOf valOf (relStep srcOf tgtOf valOf σ x) y
          = relStep srcOf tgtOf valOf σ x := by
        apply relStep_eq_of_missing
        rcases hy with h | h
        · exact Or.inl (hys.trans h)
        · exact Or.inr (hyt.trans h)
      rw [ey, ey']
    · push_neg at hx hy
      obtain ⟨sx, hsx⟩ := Option.ne_none_iff_exists'.mp hx.1
      obtain ⟨tx, htx⟩ := Option.ne_none_iff_exists'.mp hx.2
      obtain ⟨sy, hsy⟩ := Option.ne_none_iff_exists'.mp hy.1
      obtain ⟨ty, hty⟩ := Option.ne_none_iff_exists'.mp hy.2
      have ex : relStep srcOf tgtOf valOf σ x = updPrice σ (tgtOf x) (valOf x sx tx) :=
        relStep_eq_of_found srcOf tgtOf valOf x hsx htx
      have ey : relStep srcOf tgtOf valOf σ y = updPrice σ (tgtOf y) (valOf y sy ty) :=
        relStep_eq_of_found srcOf tgtOf valOf y hsy hty
      have eLhs : relStep srcOf tgtOf valOf (relStep srcOf tgtOf valOf σ x) y
          = updPrice (relStep srcOf tgtOf valOf σ x) (tgtOf y) (valOf y sy ty) :=
        relStep_eq_of_found srcOf tgtOf valOf y (hys.trans hsy) (hyt.trans hty)
      have eRhs : relStep srcOf tgtOf valOf (relStep srcOf tgtOf valOf σ y) x
          = updPrice (relStep srcOf tgtOf valOf σ y) (tgtOf x) (valOf x sx tx) :=
        relStep_eq_of_found srcOf tgtOf valOf x (hxs.trans hsx) (hxt.trans htx)
      rw [eLhs, eRhs, ex, ey]
      exact updPrice_comm _ _ htt

theorem relPass_perm {l₁ l₂ : List ρ} (hp : l₁.Perm l₂)
    (hcomm : ∀ x ∈ l₁, ∀ y ∈ l₁,
      x = y ∨ (tgtOf x ≠ tgtOf y ∧ srcOf x ≠ tgtOf y ∧ srcOf y ≠ tgtOf x))
    (σ : List Row) :
    relPass srcOf tgtOf valOf l₁ σ = relPass srcOf tgtOf valOf l₂ σ :=
  hp.foldl_eq' (fun x hx y hy _ => relStep_comm srcOf tgtOf valOf (hcomm x hx y hy)) σ

theorem mem_updPrice {σ : List Row} {k : String} {p : Int} {r' : Row}
    (h : r' ∈ updPrice σ k p) :
    ∃ r ∈ σ, r' = r ∨ (r'.key = k ∧ r' = { r with price_ars := some p }) := by
  obtain ⟨r, hr, hmap⟩ := List.mem_map.mp h
  refine ⟨r, hr, ?_⟩
  by_cases hk : (r.key == k) = true
  · right
    rw [if_pos hk] at hmap
    refine ⟨?_, hmap.symm⟩
    rw [← hmap]
    simpa [beq_iff_eq] using hk
  · left
    rw [if_neg hk] at hmap
    exact hmap.symm

theorem mem_relStep {σ : List Row} {r' : Row} {r : ρ}
    (h : r' ∈ relStep srcOf tgtOf valOf σ r) :
    ∃ r₀ ∈ σ, r' = r₀ ∨ r'.key = tgtOf r := by
  unfold relStep at h
  rcases hs : lookupRow σ (srcOf r) with _ | s <;> rw [hs] at h
  · exact ⟨r', h, Or.inl rfl⟩
  rcases ht : lookupRow σ (tgtOf r) with _ | t <;> rw [ht] at h
  · exact ⟨r', h, Or.inl rfl⟩
  obtain ⟨r₀, hr₀, hcase⟩ := mem_updPrice h
  exact ⟨r₀, hr₀, hcase.imp id (fun hh => hh.1)⟩

theorem mem_relPass {rels : List ρ} {σ : List Row} {r' : Row}
    (h : r' ∈ relPass srcOf tgtOf valOf rels σ) :
    ∃ r₀ ∈ σ, r' = r₀ ∨ r'.key ∈ rels.map tgtOf := by
  induction rels generalizing σ with
  | nil => exact ⟨r', h, Or.inl rfl⟩
  | cons hd tl ih =>
    rw [relPass_cons] at h
    obtain ⟨r₁, hr₁, hcase₁⟩ := ih h
    obtain ⟨r₀, hr₀, hcase₀⟩ := mem_relStep srcOf tgtOf valOf hr₁
    rcases hcase₁ with rfl | hk
    · rcases hcase₀ with heq | hk
      · exact ⟨r₀, hr₀, Or.inl heq⟩
      · exact ⟨r₀, hr₀, Or.inr (by simp [hk])⟩
    · refine ⟨r₀, hr₀, Or.inr ?_⟩
      simp only [List.map_cons, List.mem_cons]
      exact Or.inr hk

end RelPass

/-! ### The three stabilization passes as instances of the generic pass -/

/-- Resource key of a compression relation. -/
abbrev compSrc (x : String × String × ℚ) : String := x.1

/-- Compressed (written) key of a compression relation. -/
abbrev compTgt (x : String × String × ℚ) : String := x.2.1

/-- Recomputed compressed price of the compression pass. -/
abbrev compVal (x : String × String × ℚ) (s t : Row) : Int :=
  round_price (unit_price s * x.2.2 * (t.trade_count : ℚ))

/-- Drop key of a Fortune relation (read). -/
abbrev oreSrc (x : String × String × ℚ) : String := x.2.1

/-- Ore key of a Fortune relation (written). -/
abbrev oreTgt (x : String × String × ℚ) : String := x.1

/-- Raised ore price of the yield-floor pass. -/
abbrev oreVal (x : String × String × ℚ) (s t : Row) : Int :=
  max (t.price_ars.getD 0)
    (ceil_price (unit_price s * x.2.2 * (t.trade_count : ℚ)))

/-- Normal-ore key of a deepslate link (read). -/
abbrev deepSrc (x : String × String) : String := x.1

/-- Deepslate key of a deepslate link (written). -/
abbrev deepTgt (x : String × String) : String := x.2

/-- Raised deepslate price of the tier-floor pass. -/
abbrev deepVal (_ : String × String) (s t : Row) : Int :=
  max (t.price_ars.getD 0) (ceil_price ((s.price_ars.getD 0 : Int) : ℚ))

theorem compStep_eq (σ : List Row) (rel : String × String × ℚ) :
    compStep σ rel = relStep compSrc compTgt compVal σ rel := rfl

theorem oreStep_eq (σ : List Row) (rel : String × String × ℚ) :
    oreStep σ rel = relStep oreSrc oreTgt oreVal σ rel := rfl

theorem deepStep_eq (σ : List Row) (rel : String × String) :
    deepStep σ rel = relStep deepSrc deepTgt deepVal σ rel := rfl

theorem stabilizeWith_eq (comps ores : List (String × String × ℚ))
    (deeps : List (String × String)) (rows : List Row) :
    stabilizeWith comps ores deeps rows
      = relPass deepSrc deepTgt deepVal deeps
          (relPass oreSrc oreTgt oreVal ores
            (relPass compSrc compTgt compVal comps rows)) := by
  have hc : compStep = relStep compSrc compTgt compVal := funext fun σ => funext fun rel => compStep_eq σ rel
  have ho : oreStep = relStep oreSrc oreTgt oreVal := funext fun σ => funext fun rel => oreStep_eq σ rel
  have hd : deepStep = relStep deepSrc deepTgt deepVal := funext fun σ => funext fun rel => deepStep_eq σ rel
  unfold stabilizeWith relPass
  rw [hc, ho, hd]

/-! Concrete disjointness facts about the declared relation tables. -/

theorem comp_tgt_nodup : (COMPRESSION_RELATIONS.map compTgt).Nodup := by decide

theorem comp_src_not_tgt :
    ∀ x ∈ COMPRESSION_RELATIONS, ∀ y ∈ COMPRESSION_RELATIONS,
      compSrc x ≠ compTgt y := by decide

theorem ore_tgt_nodup : (ORE_FORTUNE_RELATIONS.map oreTgt).Nodup := by decide

theorem ore_src_not_tgt :
    ∀ x ∈ ORE_FORTUNE_RELATIONS, ∀ y ∈ ORE_FORTUNE_RELATIONS,
      oreSrc x ≠ oreTgt y := by decide

theorem deep_tgt_nodup : (DEEPSLATE_PRICE_LINKS.map deepTgt).Nodup := by decide

theorem deep_src_not_tgt :
    ∀ x ∈ DEEPSLATE_PRICE_LINKS, ∀ y ∈ DEEPSLATE_PRICE_LINKS,
      deepSrc x ≠ deepTgt y := by decide

theorem comp_keys_stable :
    ∀ x ∈ COMPRESSION_RELATIONS,
      compSrc x ∉ ORE_FORTUNE_RELATIONS.map oreTgt ∧
      compSrc x ∉ DEEPSLATE_PRICE_LINKS.map deepTgt ∧
      compTgt x ∉ ORE_FORTUNE_RELATIONS.map oreTgt ∧
      compTgt x ∉ DEEPSLATE_PRICE_LINKS.map deepTgt := by decide

theorem ore_keys_stable :
    ∀ x ∈ ORE_FORTUNE_RELATIONS,
      oreSrc x ∉ COMPRESSION_RELATIONS.map compTgt ∧
      oreSrc x ∉ DEEPSLATE_PRICE_LINKS.map deepTgt ∧
      oreTgt x ∉ COMPRESSION_RELATIONS.map compTgt := by decide

theorem comp_src_stable :
    ∀ x ∈ COMPRESSION_RELATIONS,
      compSrc x ∉ COMPRESSION_RELATIONS.map compTgt := by decide

theorem targets_ne_of_not_mem {ρ : Type} (t : ρ → String) {rels : List ρ}
    {k : String} (h : k ∉ rels.map t) : ∀ r ∈ rels, t r ≠ k :=
  fun x hx heq => h (heq ▸ List.mem_map_of_mem t hx)

theorem lookupRow_isSome_iff {σ : List Row} {k : String} :
    (lookupRow σ k).isSome ↔ k ∈ σ.map (fun r => r.key) := by
  unfold lookupRow
  rw [List.find?_isSome]
  simp only [List.mem_map, beq_iff_eq]

/-- Keys are unchanged across the whole stabilization. -/
theorem stab_keys (rows : List Row) :
    (stabilize_economy rows).map (fun r => r.key)
      = rows.map (fun r => r.key) := by
  unfold stabilize_economy
  rw [stabilizeWith_eq, keys_relPass, keys_relPass, keys_relPass]

/-- Shape (all fields except price) is preserved rowwise, in order. -/
theorem stab_shape (rows : List Row) :
    List.Forall₂ sameShape rows (stabilize_economy rows) := by
  unfold stabilize_economy
  rw [stabilizeWith_eq]
  exact shape_forall₂_trans (shape_relPass _ _ _ _ rows)
    (shape_forall₂_trans (shape_relPass _ _ _ _ _) (shape_relPass _ _ _ _ _))

/-- A key that is never a write target of any pass keeps its row unchanged. -/
theorem stab_lookup_stable {rows : List Row} {k : String}
    (h1 : k ∉ COMPRESSION_RELATIONS.map compTgt)
    (h2 : k ∉ ORE_FORTUNE_RELATIONS.map oreTgt)
    (h3 : k ∉ DEEPSLATE_PRICE_LINKS.map deepTgt) :
    lookupRow (stabilize_economy rows) k = lookupRow rows k := by
  unfold stabilize_economy
  rw [stabilizeWith_eq,
    relPass_lookup_stable _ _ _ (targets_ne_of_not_mem deepTgt h3),
    relPass_lookup_stable _ _ _ (targets_ne_of_not_mem oreTgt h2),
    relPass_lookup_stable _ _ _ (targets_ne_of_not_mem compTgt h1)]

/-- After stabilization, each compression relation with both endpoints
present holds exactly: the block price was overwritten with the recomputed
value, and the resource row is untouched. -/
theorem stab_comp_spec {rows : List Row} {rel : String × String × ℚ}
    (hrel : rel ∈ COMPRESSION_RELATIONS) {res blk : Row}
    (hres : lookupRow rows rel.1 = some res)
    (hblk : lookupRow rows rel.2.1 = some blk) :
    lookupRow (stabilize_economy rows) rel.1 = some res ∧
      lookupRow (stabilize_economy rows) rel.2.1
        = some { blk with
            price_ars := some (round_price (unit_price res * rel.2.2 * (blk.trade_count : ℚ))) } := by
  obtain ⟨hsk1, hsk2, htk1, htk2⟩ := comp_keys_stable rel hrel
  have hspec := relPass_spec compSrc compTgt compVal comp_tgt_nodup
    comp_src_not_tgt hrel hres hblk
  unfold stabilize_economy
  rw [stabilizeWith_eq]
  constructor
  · rw [relPass_lookup_stable _ _ _ (targets_ne_of_not_mem deepTgt hsk2),
      relPass_lookup_stable _ _ _ (targets_ne_of_not_mem oreTgt hsk1)]
    exact hspec.1
  · rw [relPass_lookup_stable _ _ _ (targets_ne_of_not_mem deepTgt htk2),
      relPass_lookup_stable _ _ _ (targets_ne_of_not_mem oreTgt htk1)]
    exact hspec.2

theorem oreVal_ge (x : String × String × ℚ) (s t : Row) :
    t.price_ars.getD 0 ≤ oreVal x s t := le_max_left _ _

theorem deepVal_ge (x : String × String) (s t : Row) :
    t.price_ars.getD 0 ≤ deepVal x s t := le_max_left _ _

/-- After stabilization, for each Fortune relation with both endpoints
present: the drop row is untouched, and the ore row keeps its shape while
its price is defined, at least its old value, and at least the yield floor
computed from the (unchanged) drop row. -/
theorem stab_ore_spec {rows : List Row} {rel : String × String × ℚ}
    (hrel : rel ∈ ORE_FORTUNE_RELATIONS) {ore drop : Row}
    (hore : lookupRow rows rel.1 = some ore)
    (hdrop : lookupRow rows rel.2.1 = some drop) :
    lookupRow (stabilize_economy rows) rel.2.1 = some drop ∧
      ∃ r', lookupRow (stabilize_economy rows) rel.1 = some r' ∧
        sameShape ore r' ∧
        ∃ p', r'.price_ars = some p' ∧
          ore.price_ars.getD 0 ≤ p' ∧
          ceil_price (unit_price drop * rel.2.2 * (ore.trade_count : ℚ)) ≤ p' := by
  obtain ⟨hsk1, hsk2, htk1⟩ := ore_keys_stable rel hrel
  -- the compression pass touches neither endpoint
  have hore1 : lookupRow (relPass compSrc compTgt compVal COMPRESSION_RELATIONS rows)
      rel.1 = some ore := by
    rw [relPass_lookup_stable _ _ _ (targets_ne_of_not_mem compTgt htk1)]
    exact hore
  have hdrop1 : lookupRow (relPass compSrc compTgt compVal COMPRESSION_RELATIONS rows)
      rel.2.1 = some drop := by
    rw [relPass_lookup_stable _ _ _ (targets_ne_of_not_mem compTgt hsk1)]
    exact hdrop
  have hspec := relPass_spec oreSrc oreTgt oreVal ore_tgt_nodup
    ore_src_not_tgt hrel hdrop1 hore1
  unfold stabilize_economy
  rw [stabilizeWith_eq]
  constructor
  · rw [relPass_lookup_stable _ _ _ (targets_ne_of_not_mem deepTgt hsk2)]
    exact hspec.1
  · obtain ⟨r', hr', hshape, hmono⟩ :=
      relPass_mono deepSrc deepTgt deepVal deepVal_ge hspec.2
    refine ⟨r', hr', sameShape_trans (sameShape_setPrice ore _) hshape, ?_⟩
    obtain ⟨p', hp', hle⟩ := hmono (oreVal rel drop ore) rfl
    refine ⟨p', hp', le_trans (le_max_left _ _) hle, le_trans (le_max_right _ _) hle⟩

/-- After stabilization, each deepslate link with both endpoints present
satisfies the tier floor: the deepslate price is defined and at least the
ceiling of the (final) normal-ore price. -/
theorem stab_deep_spec {rows : List Row} {rel : String × String}
    (hrel : rel ∈ DEEPSLATE_PRICE_LINKS) {n' d' : Row}
    (hn : lookupRow (stabilize_economy rows) rel.1 = some n')
    (hd : lookupRow (stabilize_economy rows) rel.2 = some d') :
    ∃ q, d'.price_ars = some q ∧
      ceil_price ((n'.price_ars.getD 0 : Int) : ℚ) ≤ q := by
  unfold stabilize_economy at hn hd
  rw [stabilizeWith_eq] at hn hd
  -- recover the two rows as they stood before the deepslate pass
  set σ₂ := relPass oreSrc oreTgt oreVal ORE_FORTUNE_RELATIONS
    (relPass compSrc compTgt compVal COMPRESSION_RELATIONS rows) with hσ₂
  have hkeys := keys_relPass deepSrc deepTgt deepVal DEEPSLATE_PRICE_LINKS σ₂
  have hpresence : ∀ (k : String) (_r : Row),
      lookupRow (relPass deepSrc deepTgt deepVal DEEPSLATE_PRICE_LINKS σ₂) k
        = some _r → ∃ r₂, lookupRow σ₂ k = some r₂ := by
    intro k _r hk
    have hmem : k ∈ σ₂.map (fun r => r.key) := by
      rw [← hkeys]
      exact lookupRow_isSome_iff.mp (by rw [hk]; rfl)
    exact Option.isSome_iff_exists.mp (lookupRow_isSome_iff.mpr hmem)
  obtain ⟨n₂, hn₂⟩ := hpresence rel.1 n' hn
  obtain ⟨d₂, hd₂⟩ := hpresence rel.2 d' hd
  have hspec := relPass_spec deepSrc deepTgt deepVal deep_tgt_nodup
    deep_src_not_tgt hrel hn₂ hd₂
  have hn' : n' = n₂ := by
    have hh := hspec.1
    rw [hn] at hh
    exact Option.some.inj hh
  have hd' : d' = { d₂ with price_ars := some (deepVal rel n₂ d₂) } := by
    have hh := hspec.2
    rw [hd] at hh
    exact Option.some.inj hh
  refine ⟨deepVal rel n₂ d₂, by rw [hd'], ?_⟩
  rw [hn']
  exact le_max_right _ _

/-- Presence of a key survives stabilization backwards: a row found after
stabilization was found (with possibly another price) before it. -/
theorem stab_lookup_back {rows : List Row} {k : String} {r' : Row}
    (h : lookupRow (stabilize_economy rows) k = some r') :
    ∃ r₀, lookupRow rows k = some r₀ := by
  have hmem : k ∈ rows.map (fun r => r.key) := by
    rw [← stab_keys rows]
    exact lookupRow_isSome_iff.mp (by rw [h]; rfl)
  exact Option.isSome_iff_exists.mp (lookupRow_isSome_iff.mpr hmem)

/-- Extract the per-field equalities from `sameShape`. -/
theorem sameShape_fields {a b : Row} (h : sameShape a b) :
    a.key = b.key ∧ a.name_ru = b.name_ru ∧ a.name_en = b.name_en ∧
      a.stack_size = b.stack_size ∧ a.category = b.category ∧
      a.obtainability = b.obtainability ∧ a.trade_count = b.trade_count ∧
      a.trade_label = b.trade_label := by
  cases a
  cases b
  simp only [sameShape, eraseP, Row.mk.injEq] at h
  obtain ⟨-, h2, h3, h4, h5, h6, h7, h8, h9, -, -⟩ := h
  exact ⟨h2, h3, h4, h5, h6, h7, h8, h9⟩

/-! ### Numeric facts about `ceil_price` -/

/-- `ceil_price` never undershoots the exact value on rationals whose
denominator is controlled: the `1e-9` guard cannot eat a fractional part of
at least `1/640`. -/
theorem ceil_price_ge {q : ℚ} {D : ℤ} (hD : 0 < D) (hD640 : D ≤ 640)
    (hint : ∃ c : ℤ, q * (D : ℚ) = (c : ℚ)) : q ≤ (ceil_price q : ℚ) := by
  have hE1 : (0 : ℚ) < EPS := by norm_num [EPS]
  have hE2 : EPS < 1 := by norm_num [EPS]
  have key : q ≤ (⌈q - EPS⌉ : ℚ) := by
    rcases eq_or_lt_of_le (Int.floor_le q) with heq | hlt
    · -- q is an integer
      have hceil : ⌈q - EPS⌉ = ⌊q⌋ := by
        rw [Int.ceil_eq_iff]
        constructor
        · linarith [heq.le, heq.ge]
        · linarith [heq.le, heq.ge]
      rw [hceil]
      exact heq.ge
    · -- q has a genuine fractional part, which is at least 1/D > 1e-9
      obtain ⟨m, hm⟩ := hint
      set n : ℤ := ⌊q⌋ with hndef
      set t : ℤ := m - n * D with htdef
      have htq : (t : ℚ) = (q - n) * D := by
        rw [htdef]
        push_cast
        rw [← hm]
        ring
      have ht0 : (0 : ℚ) < (t : ℚ) := by
        rw [htq]
        apply mul_pos
        · exact sub_pos.mpr hlt
        · exact_mod_cast hD
      have ht1 : (1 : ℤ) ≤ t := by
        have h0t : (0 : ℤ) < t := by exact_mod_cast ht0
        omega
      have hfrac : (1 : ℚ) / (D : ℚ) ≤ q - n := by
        have hDq : (0 : ℚ) < (D : ℚ) := by exact_mod_cast hD
        rw [div_le_iff₀ hDq]
        calc (1 : ℚ) ≤ (t : ℚ) := by exact_mod_cast ht1
        _ = (q - n) * D := htq
      have hEPSlt : EPS < (1 : ℚ) / (D : ℚ) := by
        have hDq : (0 : ℚ) < (D : ℚ) := by exact_mod_cast hD
        have hD640q : (D : ℚ) ≤ 640 := by exact_mod_cast hD640
        unfold EPS
        rw [div_lt_div_iff₀ (by norm_num) hDq]
        nlinarith
      have hlt2 : (n : ℚ) < q - EPS := by
        have h1 : EPS < q - n := lt_of_lt_of_le hEPSlt hfrac
        linarith
      have hceil : n + 1 ≤ ⌈q - EPS⌉ := Int.lt_ceil.mpr hlt2
      have hq : q < (⌈q - EPS⌉ : ℚ) := by
        calc q < (n : ℚ) + 1 := Int.lt_floor_add_one q
        _ = ((n + 1 : ℤ) : ℚ) := by push_cast; ring
        _ ≤ (⌈q - EPS⌉ : ℚ) := by exact_mod_cast hceil
      exact le_of_lt hq
  calc q ≤ (⌈q - EPS⌉ : ℚ) := key
  _ ≤ ((max 1 ⌈q - EPS⌉ : ℤ) : ℚ) := by exact_mod_cast le_max_right _ _
  _ = (ceil_price q : ℚ) := rfl

/-- Every Fortune multiplier is an exact multiple of one tenth. -/
theorem ore_mult_int :
    ∀ x ∈ ORE_FORTUNE_RELATIONS, ∃ c : ℤ, x.2.2 * 10 = (c : ℚ) := by
  intro x hx
  fin_cases hx
  · exact ⟨22, by norm_num⟩
  · exact ⟨22, by norm_num⟩
  · exact ⟨22, by norm_num⟩
  · exact ⟨22, by norm_num⟩
  · exact ⟨22, by norm_num⟩
  · exact ⟨22, by norm_num⟩
  · exact ⟨22, by norm_num⟩
  · exact ⟨22, by norm_num⟩
  · exact ⟨22, by norm_num⟩
  · exact ⟨22, by norm_num⟩
  · exact ⟨22, by norm_num⟩
  · exact ⟨99, by norm_num⟩
  · exact ⟨99, by norm_num⟩
  · exact ⟨143, by norm_num⟩
  · exact ⟨143, by norm_num⟩
  · exact ⟨88, by norm_num⟩

/-! ### Claim theorems -/

/-- C9: frame property of the stabilization passes: `stabilize_economy`
(the compression, yield-floor and deepslate tier-floor passes) neither adds
nor removes rows, and for every row it leaves key, names, stack size,
category, obtainability, trade count and trade label unchanged — only the
price field may change. -/
theorem claim_C9_stabilize_frame (rows : List Row) :
    (stabilize_economy rows).length = rows.length ∧
    List.Forall₂
      (fun r r' => r.key = r'.key ∧ r.name_ru = r'.name_ru ∧
        r.name_en = r'.name_en ∧ r.stack_size = r'.stack_size ∧
        r.category = r'.category ∧ r.obtainability = r'.obtainability ∧
        r.trade_count = r'.trade_count ∧ r.trade_label = r'.trade_label)
      rows (stabilize_economy rows) := by
  refine ⟨((stab_shape rows).length_eq).symm, ?_⟩
  exact List.Forall₂.imp (fun _ _ h => sameShape_fields h) (stab_shape rows)

/-- C2: compression exactness: for every declared
`(resource_key, compressed_key, ratio)` relation whose endpoints are both
present in the working set, after stabilization the compressed entity's
price equals `round(unit_price(resource) × ratio × trade_count(compressed))`
(the pass overwrites the price), and in particular
`round(1/64 × 9 × 1) = 1`. -/
theorem claim_C2_compression_exact {rows : List Row}
    {resource_key compressed_key : String} {ratio : ℚ}
    (hrel : (resource_key, compressed_key, ratio) ∈ COMPRESSION_RELATIONS)
    {res blk : Row}
    (hres : lookupRow rows resource_key = some res)
    (hblk : lookupRow rows compressed_key = some blk) :
    (∃ res' blk',
      lookupRow (stabilize_economy rows) resource_key = some res' ∧
      lookupRow (stabilize_economy rows) compressed_key = some blk' ∧
      blk'.price_ars
        = some (round_price (unit_price res' * ratio * (blk'.trade_count : ℚ)))) ∧
    round_price ((1 : ℚ)/64 * 9 * 1) = 1 := by
  have hspec := stab_comp_spec hrel hres hblk
  constructor
  · exact ⟨res, _, hspec.1, hspec.2, rfl⟩
  · have h0 : ⌊((1 : ℚ)/64 * 9 * 1 + 0.5)⌋ = 0 := by
      rw [Int.floor_eq_iff]
      norm_num
    unfold round_price pytrunc
    rw [if_pos (by norm_num), h0]
    norm_num

/-- A minimal priced row used by the concrete witnesses below. -/
def wRow (k : String) (tc p : Int) : Row :=
  { id := 0, key := k, name_ru := k, name_en := k, stack_size := 64,
    category := "c", obtainability := "n", trade_count := tc,
    trade_label := "l", price_ars := some p, price_note := none,
    icon_key := none }

theorem claim_C2_witness :
    ("coal", "coal_block", (9 : ℚ)) ∈ COMPRESSION_RELATIONS ∧
    lookupRow [wRow "coal" 64 1, wRow "coal_block" 1 7] "coal"
      = some (wRow "coal" 64 1) ∧
    lookupRow [wRow "coal" 64 1, wRow "coal_block" 1 7] "coal_block"
      = some (wRow "coal_block" 1 7) ∧
    ((∃ res' blk',
      lookupRow (stabilize_economy [wRow "coal" 64 1, wRow "coal_block" 1 7])
        "coal" = some res' ∧
      lookupRow (stabilize_economy [wRow "coal" 64 1, wRow "coal_block" 1 7])
        "coal_block" = some blk' ∧
      blk'.price_ars
        = some (round_price (unit_price res' * 9 * (blk'.trade_count : ℚ)))) ∧
    round_price ((1 : ℚ)/64 * 9 * 1) = 1) := by
  have hrel : ("coal", "coal_block", (9 : ℚ)) ∈ COMPRESSION_RELATIONS :=
    List.mem_cons_self _ _
  exact ⟨hrel, rfl, rfl, claim_C2_compression_exact hrel rfl rfl⟩

/-- C5 (amended): `ceil_price` computes `max(1, ⌈v - 1e-9⌉)`, not
`max(1, ⌈v⌉)`; the two agree for every positive `v` whose fractional part is
zero or exceeds the `1e-9` guard (in particular on all values whose
denominator is at most `10⁹`), but not in general. -/
theorem claim_C5_ceil_price (v : ℚ) (hv : 0 < v)
    (h : Int.fract v = 0 ∨ EPS < Int.fract v) :
    ceil_price v = max 1 ⌈v⌉ := by
  have hE1 : (0 : ℚ) < EPS := by norm_num [EPS]
  have hE2 : EPS < 1 := by norm_num [EPS]
  unfold ceil_price
  congr 1
  rcases h with h | h
  · -- v is an integer
    have h2 := Int.self_sub_floor v
    rw [h] at h2
    have hfl : v = (⌊v⌋ : ℚ) := by linarith
    have hc1 : ⌈v⌉ = ⌊v⌋ := by
      rw [hfl]
      simp
    have hc2 : ⌈v - EPS⌉ = ⌊v⌋ := by
      rw [Int.ceil_eq_iff]
      constructor
      · linarith [hfl.le, hfl.ge]
      · linarith [hfl.le, hfl.ge]
    rw [hc1, hc2]
  · -- the fractional part survives the 1e-9 guard
    have h2 := Int.self_sub_floor v
    have hlow : (⌊v⌋ : ℚ) + EPS < v := by
      have : EPS < v - ⌊v⌋ := by rw [h2]; exact h
      linarith
    have hup : v ≤ (⌊v⌋ : ℚ) + 1 := le_of_lt (Int.lt_floor_add_one v)
    have hc1 : ⌈v⌉ = ⌊v⌋ + 1 := by
      rw [Int.ceil_eq_iff]
      constructor
      · push_cast
        linarith
      · push_cast
        linarith
    have hc2 : ⌈v - EPS⌉ = ⌊v⌋ + 1 := by
      rw [Int.ceil_eq_iff]
      constructor
      · push_cast
        linarith
      · push_cast
        linarith
    rw [hc1, hc2]

/-- C5 counterexample: at `v = 2 + 1/2000000000` (a positive value), the
code's `ceil_price` returns `2`, while the claimed `max(1, ⌈v⌉)` is `3`. -/
theorem claim_C5_counterexample :
    (0 : ℚ) < 2 + 1/2000000000 ∧
    ceil_price (2 + 1/2000000000 : ℚ) = 2 ∧
    max 1 ⌈(2 + 1/2000000000 : ℚ)⌉ = 3 := by
  refine ⟨by norm_num, ?_, ?_⟩
  · have h : ⌈(2 + 1/2000000000 - EPS : ℚ)⌉ = 2 := by
      rw [Int.ceil_eq_iff]
      unfold EPS
      norm_num
    unfold ceil_price
    rw [h]
    exact max_eq_right (by norm_num)
  · have h : ⌈(2 + 1/2000000000 : ℚ)⌉ = 3 := by
      rw [Int.ceil_eq_iff]
      norm_num
    rw [h]
    exact max_eq_right (by norm_num)

theorem claim_C5_witness :
    ((0 : ℚ) < 3/2 ∧
      (Int.fract (3/2 : ℚ) = 0 ∨ EPS < Int.fract (3/2 : ℚ))) ∧
    ceil_price (3/2 : ℚ) = max 1 ⌈(3/2 : ℚ)⌉ := by
  have hfl : ⌊(3/2 : ℚ)⌋ = 1 := by
    rw [Int.floor_eq_iff]
    norm_num
  have h2 := Int.self_sub_floor (3/2 : ℚ)
  rw [hfl] at h2
  have hfr : Int.fract (3/2 : ℚ) = 1/2 := by
    rw [← h2]
    norm_num
  have hlt : EPS < Int.fract (3/2 : ℚ) := by
    rw [hfr]
    norm_num [EPS]
  exact ⟨⟨by norm_num, Or.inr hlt⟩,
    claim_C5_ceil_price _ (by norm_num) (Or.inr hlt)⟩

/-- C3: yield-floor non-violation: for every declared
`(source_key, drop_key, multiplier)` relation with both endpoints present —
on a working set with the pipeline's trade counts, which always lie in
`[1, 64]` — after stabilization the source satisfies
`unit_price(source) ≥ unit_price(drop) × multiplier`, and stabilization
never decreases the source's price below its pre-stabilization value. -/
theorem claim_C3_yield_floor {rows : List Row} {ore_key drop_key : String}
    {mult : ℚ}
    (hrel : (ore_key, drop_key, mult) ∈ ORE_FORTUNE_RELATIONS)
    {ore drop : Row}
    (hore : lookupRow rows ore_key = some ore)
    (hdrop : lookupRow rows drop_key = some drop)
    (hotc : 1 ≤ ore.trade_count)
    (hdtc : 1 ≤ drop.trade_count) (hdtc64 : drop.trade_count ≤ 64) :
    ∃ ore' drop',
      lookupRow (stabilize_economy rows) ore_key = some ore' ∧
      lookupRow (stabilize_economy rows) drop_key = some drop' ∧
      unit_price drop' * mult ≤ unit_price ore' ∧
      ore.price_ars.getD 0 ≤ ore'.price_ars.getD 0 := by
  obtain ⟨hdropS, r', hr', hshape, p', hp', hold, hceilp⟩ :=
    stab_ore_spec hrel hore hdrop
  refine ⟨r', drop, hr', hdropS, ?_, ?_⟩
  · -- the stabilized source price clears the yield floor
    set q : ℚ := unit_price drop * mult * (ore.trade_count : ℚ) with hqdef
    obtain ⟨c, hc⟩ := ore_mult_int (ore_key, drop_key, mult) hrel
    have hdtcQ : ((drop.trade_count : Int) : ℚ) ≠ 0 := by
      have h0 : (0 : ℤ) < drop.trade_count := lt_of_lt_of_le one_pos hdtc
      exact_mod_cast ne_of_gt h0
    have hc' : mult * 10 = (c : ℚ) := hc
    have hint : ∃ cc : ℤ, q * ((10 * drop.trade_count : ℤ) : ℚ) = (cc : ℚ) := by
      refine ⟨drop.price_ars.getD 0 * c * ore.trade_count, ?_⟩
      rw [hqdef]
      unfold unit_price
      push_cast
      field_simp
      linear_combination (((drop.price_ars.getD 0 : Int) : ℚ)
        * ((ore.trade_count : Int) : ℚ) * ((drop.trade_count : Int) : ℚ)) * hc'
    have hD1 : (0 : ℤ) < 10 * drop.trade_count := by omega
    have hD2 : (10 : ℤ) * drop.trade_count ≤ 640 := by omega
    have hq : q ≤ (ceil_price q : ℚ) := ceil_price_ge hD1 hD2 hint
    have hqp : q ≤ (p' : ℚ) := by
      calc q ≤ (ceil_price q : ℚ) := hq
      _ ≤ (p' : ℚ) := by exact_mod_cast hceilp
    have hotcQ : (0 : ℚ) < ((ore.trade_count : Int) : ℚ) := by
      exact_mod_cast lt_of_lt_of_le one_pos hotc
    have hup : unit_price r' = (p' : ℚ) / ((ore.trade_count : Int) : ℚ) := by
      unfold unit_price
      rw [hp', ← sameShape_trade_count hshape]
      rfl
    rw [hup, le_div_iff₀ hotcQ]
    calc unit_price drop * mult * (ore.trade_count : ℚ) = q := by rw [hqdef]
    _ ≤ (p' : ℚ) := hqp
  · -- stabilization never lowered the source price
    rw [hp']
    exact le_trans hold (le_refl _)

theorem claim_C3_witness :
    ("coal_ore", "coal", (2.2 : ℚ)) ∈ ORE_FORTUNE_RELATIONS ∧
    lookupRow [wRow "coal_ore" 1 1, wRow "coal" 64 1] "coal_ore"
      = some (wRow "coal_ore" 1 1) ∧
    lookupRow [wRow "coal_ore" 1 1, wRow "coal" 64 1] "coal"
      = some (wRow "coal" 64 1) ∧
    (1 ≤ (wRow "coal_ore" 1 1).trade_count ∧
      1 ≤ (wRow "coal" 64 1).trade_count ∧
      (wRow "coal" 64 1).trade_count ≤ 64) ∧
    ∃ ore' drop',
      lookupRow (stabilize_economy [wRow "coal_ore" 1 1, wRow "coal" 64 1])
        "coal_ore" = some ore' ∧
      lookupRow (stabilize_economy [wRow "coal_ore" 1 1, wRow "coal" 64 1])
        "coal" = some drop' ∧
      unit_price drop' * 2.2 ≤ unit_price ore' ∧
      (wRow "coal_ore" 1 1).price_ars.getD 0 ≤ ore'.price_ars.getD 0 := by
  have hrel : ("coal_ore", "coal", (2.2 : ℚ)) ∈ ORE_FORTUNE_RELATIONS :=
    List.mem_cons_self _ _
  refine ⟨hrel, rfl, rfl, ⟨by norm_num [wRow], by norm_num [wRow], by norm_num [wRow]⟩, ?_⟩
  exact claim_C3_yield_floor hrel rfl rfl (by norm_num [wRow])
    (by norm_num [wRow]) (by norm_num [wRow])

/-- The compression pass is a no-op on an already stabilized set. -/
theorem compStep_fixed {rows : List Row} (hnd : keysNodup rows)
    {rel : String × String × ℚ} (hrel : rel ∈ COMPRESSION_RELATIONS) :
    compStep (stabilize_economy rows) rel = stabilize_economy rows := by
  have hndσ : keysNodup (stabilize_economy rows) := by
    unfold keysNodup
    rw [stab_keys]
    exact hnd
  rw [compStep_eq]
  rcases hres' : lookupRow (stabilize_economy rows) (compSrc rel) with _ | res'
  · exact relStep_eq_of_missing _ _ _ rel (Or.inl hres')
  rcases hblk' : lookupRow (stabilize_economy rows) (compTgt rel) with _ | blk'
  · exact relStep_eq_of_missing _ _ _ rel (Or.inr hblk')
  rw [relStep_eq_of_found _ _ _ rel hres' hblk']
  -- the resource row was never written, so it is also the initial one
  have hres0 : lookupRow rows rel.1 = some res' := by
    rw [← stab_lookup_stable (comp_src_stable rel hrel)
      (comp_keys_stable rel hrel).1 (comp_keys_stable rel hrel).2.1]
    exact hres'
  obtain ⟨blk₀, hblk₀⟩ := stab_lookup_back hblk'
  have hspec := stab_comp_spec hrel hres0 hblk₀
  have hblkeq : blk' = { blk₀ with
      price_ars := some (round_price (unit_price res' * rel.2.2 * (blk₀.trade_count : ℚ))) } := by
    have hh := hspec.2
    rw [hblk'] at hh
    exact Option.some.inj hh
  have hprice : blk'.price_ars = some (compVal rel res' blk') := by
    rw [hblkeq]
  exact updPrice_eq_self hndσ hblk' hprice

/-- The yield-floor pass is a no-op on an already stabilized set. -/
theorem oreStep_fixed {rows : List Row} (hnd : keysNodup rows)
    {rel : String × String × ℚ} (hrel : rel ∈ ORE_FORTUNE_RELATIONS) :
    oreStep (stabilize_economy rows) rel = stabilize_economy rows := by
  have hndσ : keysNodup (stabilize_economy rows) := by
    unfold keysNodup
    rw [stab_keys]
    exact hnd
  rw [oreStep_eq]
  rcases hdrop' : lookupRow (stabilize_economy rows) (oreSrc rel) with _ | drop'
  · exact relStep_eq_of_missing _ _ _ rel (Or.inl hdrop')
  rcases hore' : lookupRow (stabilize_economy rows) (oreTgt rel) with _ | ore'
  · exact relStep_eq_of_missing _ _ _ rel (Or.inr hore')
  rw [relStep_eq_of_found _ _ _ rel hdrop' hore']
  obtain ⟨ore₀, hore₀⟩ := stab_lookup_back hore'
  obtain ⟨drop₀, hdrop₀⟩ := stab_lookup_back hdrop'
  obtain ⟨hdropS, r', hr', hshape, p', hp', hold, hceilp⟩ :=
    stab_ore_spec hrel hore₀ hdrop₀
  have hdeq : drop' = drop₀ := by
    rw [hdrop'] at hdropS
    exact Option.some.inj hdropS
  have hoeq : ore' = r' := by
    rw [hore'] at hr'
    exact Option.some.inj hr'
  have hval : oreVal rel drop' ore' = p' := by
    unfold oreVal
    rw [hoeq, hdeq, hp']
    have htc : r'.trade_count = ore₀.trade_count :=
      (sameShape_trade_count hshape).symm
    rw [htc]
    exact max_eq_left hceilp
  rw [hval]
  apply updPrice_eq_self hndσ hore'
  rw [hoeq]
  exact hp'

/-- The deepslate tier-floor pass is a no-op on an already stabilized set. -/
theorem deepStep_fixed {rows : List Row} (hnd : keysNodup rows)
    {rel : String × String} (hrel : rel ∈ DEEPSLATE_PRICE_LINKS) :
    deepStep (stabilize_economy rows) rel = stabilize_economy rows := by
  have hndσ : keysNodup (stabilize_economy rows) := by
    unfold keysNodup
    rw [stab_keys]
    exact hnd
  rw [deepStep_eq]
  rcases hn' : lookupRow (stabilize_economy rows) (deepSrc rel) with _ | n'
  · exact relStep_eq_of_missing _ _ _ rel (Or.inl hn')
  rcases hd' : lookupRow (stabilize_economy rows) (deepTgt rel) with _ | d'
  · exact relStep_eq_of_missing _ _ _ rel (Or.inr hd')
  rw [relStep_eq_of_found _ _ _ rel hn' hd']
  obtain ⟨qq, hq, hqge⟩ := stab_deep_spec hrel hn' hd'
  have hval : deepVal rel n' d' = qq := by
    unfold deepVal
    rw [hq]
    exact max_eq_left hqge
  rw [hval]
  exact updPrice_eq_self hndσ hd' hq

/-- C1: stabilization is idempotent: on any working set with pairwise
distinct keys (the data model's invariant for the set produced by the
pricing steps), re-running the full stabilization on an already stabilized
set changes nothing. -/
theorem claim_C1_stabilize_idempotent {rows : List Row}
    (hnd : keysNodup rows) :
    stabilize_economy (stabilize_economy rows) = stabilize_economy rows := by
  have h1 : COMPRESSION_RELATIONS.foldl compStep (stabilize_economy rows)
      = stabilize_economy rows :=
    foldl_self (fun rel hrel => compStep_fixed hnd hrel)
  have h2 : ORE_FORTUNE_RELATIONS.foldl oreStep (stabilize_economy rows)
      = stabilize_economy rows :=
    foldl_self (fun rel hrel => oreStep_fixed hnd hrel)
  have h3 : DEEPSLATE_PRICE_LINKS.foldl deepStep (stabilize_economy rows)
      = stabilize_economy rows :=
    foldl_self (fun rel hrel => deepStep_fixed hnd hrel)
  show stabilizeWith COMPRESSION_RELATIONS ORE_FORTUNE_RELATIONS
    DEEPSLATE_PRICE_LINKS (stabilize_economy rows) = stabilize_economy rows
  unfold stabilizeWith
  rw [h1, h2, h3]

theorem claim_C1_witness :
    keysNodup [wRow "coal" 64 1, wRow "coal_block" 1 7, wRow "coal_ore" 1 1] ∧
    stabilize_economy (stabilize_economy
        [wRow "coal" 64 1, wRow "coal_block" 1 7, wRow "coal_ore" 1 1])
      = stabilize_economy
        [wRow "coal" 64 1, wRow "coal_block" 1 7, wRow "coal_ore" 1 1] := by
  have hnd : keysNodup [wRow "coal" 64 1, wRow "coal_block" 1 7, wRow "coal_ore" 1 1] := by
    unfold keysNodup wRow
    decide
  exact ⟨hnd, claim_C1_stabilize_idempotent hnd⟩

/-! ### Infrastructure for the whole-pipeline claims -/

theorem foldl_preserve {α β : Type*} {P : β → Prop} {f : β → α → β}
    {l : List α} {b : β}
    (h : ∀ b' a, a ∈ l → P b' → P (f b' a)) (hb : P b) : P (l.foldl f b) := by
  induction l generalizing b with
  | nil => exact hb
  | cons hd tl ih =>
    rw [List.foldl_cons]
    exact ih (fun b' a ha hP => h b' a (List.mem_cons_of_mem hd ha) hP)
      (h b hd (List.mem_cons_self hd tl) hb)

theorem lookup_mem_pairs {β : Type*} {a : String} {b : β}
    {l : List (String × β)} (h : List.lookup a l = some b) : (a, b) ∈ l := by
  induction l with
  | nil => simp [List.lookup] at h
  | cons hd tl ih =>
    rcases hd with ⟨k, v⟩
    by_cases hab : a = k
    · simp only [List.lookup, hab, beq_self_eq_true] at h
      obtain rfl : v = b := by injection h
      rw [hab]
      exact List.mem_cons_self _ _
    · have hne : (a == k) = false := by
        simp [beq_eq_false_iff_ne, hab]
      simp only [List.lookup, hne] at h
      exact List.mem_cons_of_mem _ (ih h)

theorem mem_mergeNew {rows extra : List Row} {r : Row}
    (h : r ∈ mergeNew rows extra) : r ∈ rows ∨ r ∈ extra := by
  unfold mergeNew at h
  induction extra generalizing rows with
  | nil => exact Or.inl h
  | cons hd tl ih =>
    rw [List.foldl_cons] at h
    rcases ih h with hin | hin
    · by_cases hc : ((rows.map (fun x => x.key)).contains hd.key) = true
      · rw [if_pos hc] at hin
        exact Or.inl hin
      · rw [if_neg hc] at hin
        rcases List.mem_append.mp hin with hin | hin
        · exact Or.inl hin
        · have : r = hd := by simpa using hin
          rw [this]
          exact Or.inr (List.mem_cons_self hd tl)
    · exact Or.inr (List.mem_cons_of_mem hd hin)

theorem mem_mergeNew_base {rows extra : List Row} {r : Row}
    (h : r ∈ rows) : r ∈ mergeNew rows extra := by
  unfold mergeNew
  induction extra generalizing rows with
  | nil => exact h
  | cons hd tl ih =>
    rw [List.foldl_cons]
    by_cases hc : ((rows.map (fun x => x.key)).contains hd.key) = true
    · rw [if_pos hc]
      exact ih h
    · rw [if_neg hc]
      exact ih (List.mem_append.mpr (Or.inl h))

theorem mem_buildItems {catalog : List Item} {ru : String → Option String}
    {r : Row} (h : r ∈ buildItems catalog ru) :
    r ∈ pricedRows catalog ru ∨ r ∈ CUSTOM_ITEMS ∨
      r ∈ build_enchanted_book_items := by
  unfold buildItems at h
  rw [List.mem_mergeSort] at h
  rcases mem_mergeNew h with h2 | h2
  · rcases mem_mergeNew h2 with h3 | h3
    · exact Or.inl h3
    · exact Or.inr (Or.inl h3)
  · exact Or.inr (Or.inr h2)

theorem keys_dumpStep (σ : List Row) (e : String × Int × Int) :
    (dumpStep σ e).map (fun r => r.key) = σ.map (fun r => r.key) := by
  cases hlk : lookupRow σ e.1 with
  | none => simp only [dumpStep, hlk]
  | some row =>
    cases hp : row.price_ars with
    | none => simp only [dumpStep, hlk, hp]
    | some p =>
      simp only [dumpStep, hlk, hp]
      apply keys_map_keep
      intro r
      by_cases hk : (r.key == e.1) = true <;> simp [hk]

theorem keys_undefStep (σ : List Row) (k : String) :
    (undefStep σ k).map (fun r => r.key) = σ.map (fun r => r.key) := by
  cases hlk : lookupRow σ k with
  | none => simp only [undefStep, hlk]
  | some row =>
    simp only [undefStep, hlk]
    apply keys_map_keep
    intro r
    by_cases hk : (r.key == k) = true <;> simp [hk]

theorem keys_dumpPass (σ : List Row) :
    (enforce_antidumping σ).map (fun r => r.key) = σ.map (fun r => r.key) := by
  unfold enforce_antidumping
  induction ANTI_DUMP_MINIMUMS generalizing σ with
  | nil => rfl
  | cons hd tl ih =>
    rw [List.foldl_cons, ih, keys_dumpStep]

theorem keys_undefPass (σ : List Row) :
    (apply_undefined_prices σ).map (fun r => r.key) = σ.map (fun r => r.key) := by
  unfold apply_undefined_prices
  induction UNDEFINED_PRICE_KEYS generalizing σ with
  | nil => rfl
  | cons hd tl ih =>
    rw [List.foldl_cons, ih, keys_undefStep]

theorem keys_pricedRows (catalog : List Item) (ru : String → Option String) :
    (pricedRows catalog ru).map (fun r => r.key)
      = (rawRows catalog ru).map (fun r => r.key) := by
  unfold pricedRows
  rw [keys_undefPass, keys_dumpPass, stab_keys]

/-- Every raw (pre-merge) row of the pipeline carries an eligible key. -/
theorem pricedRows_obtainable {catalog : List Item} {ru : String → Option String}
    {r : Row} (h : r ∈ pricedRows catalog ru) :
    is_survival_obtainable r.key = true := by
  have hk : r.key ∈ (pricedRows catalog ru).map (fun r => r.key) :=
    List.mem_map_of_mem _ h
  rw [keys_pricedRows] at hk
  obtain ⟨r₀, hr₀, hkey⟩ := List.mem_map.mp hk
  unfold rawRows at hr₀
  obtain ⟨it, hit, hrow⟩ := List.mem_map.mp hr₀
  have hob := List.mem_filter.mp hit
  rw [← hkey, ← hrow]
  exact hob.2

theorem custom_keys_obtainable :
    ∀ r ∈ CUSTOM_ITEMS, is_survival_obtainable r.key = true := by decide

set_option maxRecDepth 8192 in
theorem book_keys_obtainable :
    ∀ r ∈ build_enchanted_book_items, is_survival_obtainable r.key = true := by
  decide

/-- C8: eligibility filtering: a key in the excluded-exact set, or starting
with an excluded start, or ending with an excluded ending, never appears as
the key of any record of the final output; the filter is the pure predicate
`is_survival_obtainable` of the key alone. -/
theorem claim_C8_eligibility (catalog : List Item) (ru : String → Option String)
    (k : String)
    (hex : EXCLUDE_EXACT.contains k = true ∨
      EXCLUDE_STARTS.any (fun s => strStarts k s) = true ∨
      EXCLUDE_ENDS.any (fun s => strEnds k s) = true)
    (r : Row) (hr : r ∈ buildItems catalog ru) : r.key ≠ k := by
  intro hkey
  have hobt : is_survival_obtainable r.key = true := by
    rcases mem_buildItems hr with h | h | h
    · exact pricedRows_obtainable h
    · exact custom_keys_obtainable r h
    · exact book_keys_obtainable r h
  rw [hkey] at hobt
  unfold is_survival_obtainable at hobt
  rcases hex with h | h | h
  · rw [if_pos h] at hobt
    simp at hobt
  · by_cases h1 : EXCLUDE_EXACT.contains k = true
    · rw [if_pos h1] at hobt
      simp at hobt
    · rw [if_neg h1, if_pos h] at hobt
      simp at hobt
  · by_cases h1 : EXCLUDE_EXACT.contains k = true
    · rw [if_pos h1] at hobt
      simp at hobt
    · by_cases h2 : EXCLUDE_STARTS.any (fun s => strStarts k s) = true
      · rw [if_neg h1, if_pos h2] at hobt
        simp at hobt
      · rw [if_neg h1, if_neg h2, if_pos h] at hobt
        simp at hobt

/-- The raw catalog record used by the concrete end-to-end runs below. -/
def ghItem : Item := ⟨1, "ghast_tear", some 64, none⟩

/-- The empty localization map (every lookup falls back). -/
def ruE : String → Option String := fun _ => none

/-- The output record the pipeline produces for `ghast_tear`: the integer
override `(1, 2)` is applied first, and `apply_undefined_prices` then forces
the undefined marker. -/
def ghRow : Row :=
  { id := 1, key := "ghast_tear", name_ru := "Ghast Tear",
    name_en := "Ghast Tear", stack_size := 64, category := "Незер и Энд",
    obtainability := "Обычный", trade_count := 1, trade_label := "шт",
    price_ars := none, price_note := some "неопределенно", icon_key := none }

theorem ghRow_priced : pricedRows [ghItem] ruE = [ghRow] := by decide

theorem ghRow_mem : ghRow ∈ buildItems [ghItem] ruE := by
  unfold buildItems
  rw [List.mem_mergeSort]
  apply mem_mergeNew_base
  apply mem_mergeNew_base
  rw [ghRow_priced]
  exact List.mem_cons_self _ _

/-- The field content `apply_undefined_prices` writes into a forced row. -/
def undefForced (r : Row) : Prop :=
  r.price_ars = none ∧ r.trade_count = 1 ∧ r.trade_label = "шт" ∧
    r.price_note = some "неопределенно"

theorem undefStep_forces {σ : List Row} {k : String} {r : Row}
    (hr : r ∈ undefStep σ k) (hkey : r.key = k) : undefForced r := by
  cases hlk : lookupRow σ k with
  | none =>
    simp only [undefStep, hlk] at hr
    exfalso
    have hnone := List.find?_eq_none.mp
      (show List.find? (fun x => x.key == k) σ = none from hlk) r hr
    apply hnone
    simp [beq_iff_eq, hkey]
  | some row =>
    simp only [undefStep, hlk] at hr
    obtain ⟨r₀, hr₀, hmap⟩ := List.mem_map.mp hr
    by_cases hk0 : (r₀.key == k) = true
    · rw [if_pos hk0] at hmap
      rw [← hmap]
      exact ⟨rfl, rfl, rfl, rfl⟩
    · rw [if_neg hk0] at hmap
      exfalso
      apply hk0
      simp [beq_iff_eq, hmap, hkey]

theorem undefStep_keeps {σ : List Row} {k' k : String}
    (hall : ∀ r ∈ σ, r.key = k → undefForced r) :
    ∀ r ∈ undefStep σ k', r.key = k → undefForced r := by
  intro r hr hkey
  cases hlk : lookupRow σ k' with
  | none =>
    simp only [undefStep, hlk] at hr
    exact hall r hr hkey
  | some row =>
    simp only [undefStep, hlk] at hr
    obtain ⟨r₀, hr₀, hmap⟩ := List.mem_map.mp hr
    by_cases hk0 : (r₀.key == k') = true
    · rw [if_pos hk0] at hmap
      rw [← hmap]
      exact ⟨rfl, rfl, rfl, rfl⟩
    · rw [if_neg hk0] at hmap
      rw [← hmap] at hkey ⊢
      exact hall r₀ hr₀ hkey

theorem undefPass_forces {σ : List Row} {k : String}
    (hk : k ∈ UNDEFINED_PRICE_KEYS) :
    ∀ r ∈ apply_undefined_prices σ, r.key = k → undefForced r := by
  unfold apply_undefined_prices
  suffices h : ∀ (l : List String) (σ' : List Row), k ∈ l →
      ∀ r ∈ l.foldl undefStep σ', r.key = k → undefForced r from h _ σ hk
  intro l
  induction l with
  | nil =>
    intro σ' hmem
    cases hmem
  | cons hd tl ih =>
    intro σ' hkl r hr hkey
    rw [List.foldl_cons] at hr
    rcases List.mem_cons.mp hkl with rfl | hmem
    · by_cases hmem2 : k ∈ tl
      · exact ih _ hmem2 r hr hkey
      · have hbase : ∀ r' ∈ undefStep σ' k, r'.key = k → undefForced r' :=
          fun r' hr' hk' => undefStep_forces hr' hk'
        exact @foldl_preserve String (List Row)
          (fun σ'' => ∀ r' ∈ σ'', r'.key = k → undefForced r')
          undefStep tl (undefStep σ' k)
          (fun b' a _ hP r' hr' hk' => undefStep_keeps hP r' hr' hk')
          hbase r hr hkey
    · exact ih _ hmem r hr hkey

theorem custom_keys_not_undef :
    ∀ r ∈ CUSTOM_ITEMS, r.key ∉ UNDEFINED_PRICE_KEYS := by decide

set_option maxRecDepth 8192 in
theorem book_keys_not_undef :
    ∀ r ∈ build_enchanted_book_items, r.key ∉ UNDEFINED_PRICE_KEYS := by decide

/-- C10: undefined-price forcing: every key of the configured
undefined-price set that is present in the working set ends with the
undefined price marker, trade count 1, label `шт` and the accompanying note
in its final record — even when the key also has a hard integer override or
an anti-dumping minimum, because this step runs after stabilization and
anti-dumping. -/
theorem claim_C10_undefined_forcing {catalog : List Item}
    {ru : String → Option String}
    (hnd : (catalog.map Item.name).Nodup) {k : String}
    (hk : k ∈ UNDEFINED_PRICE_KEYS) {r : Row}
    (hr : r ∈ buildItems catalog ru) (hkey : r.key = k) :
    r.price_ars = none ∧ r.trade_count = 1 ∧ r.trade_label = "шт" ∧
      r.price_note = some "неопределенно" := by
  rcases mem_buildItems hr with h | h | h
  · unfold pricedRows at h
    exact undefPass_forces hk r h hkey
  · exact absurd (hkey ▸ hk) (custom_keys_not_undef r h)
  · exact absurd (hkey ▸ hk) (book_keys_not_undef r h)

theorem claim_C10_witness :
    ([ghItem].map Item.name).Nodup ∧
    "ghast_tear" ∈ UNDEFINED_PRICE_KEYS ∧
    ghRow ∈ buildItems [ghItem] ruE ∧ ghRow.key = "ghast_tear" ∧
    (ghRow.price_ars = none ∧ ghRow.trade_count = 1 ∧
      ghRow.trade_label = "шт" ∧ ghRow.price_note = some "неопределенно") :=
  ⟨by decide, by decide, ghRow_mem, rfl,
    claim_C10_undefined_forcing (by decide) (by decide) ghRow_mem rfl⟩

/-- Every row whose key carries a hard integer override and is not in the
undefined-price set shows exactly the overridden `(trade_count, price)`. -/
def overrideRespected (σ : List Row) : Prop :=
  ∀ r ∈ σ, ∀ tc p : Int,
    List.lookup r.key INTEGER_OVERRIDES = some (tc, p) →
    r.key ∉ UNDEFINED_PRICE_KEYS → r.trade_count = tc ∧ r.price_ars = some p

theorem rowOfItem_override {it : Item} {ru : String → Option String}
    {tc p : Int}
    (hlk : List.lookup it.name INTEGER_OVERRIDES = some (tc, p)) :
    (rowOfItem it ru).trade_count = tc ∧
      (rowOfItem it ru).price_ars = some p := by
  have h1 : infer_integer_offer it
      = (tc, if tc = 64 then "стак" else if tc = 1 then "шт"
          else toString tc ++ " шт", p) := by
    unfold infer_integer_offer
    rw [hlk]
  constructor <;> simp [rowOfItem, h1]

theorem override_rawRows (catalog : List Item) (ru : String → Option String) :
    overrideRespected (rawRows catalog ru) := by
  intro r hr tc p hlk hnu
  unfold rawRows at hr
  obtain ⟨it, _, hrow⟩ := List.mem_map.mp hr
  subst hrow
  exact rowOfItem_override hlk

theorem mem_stab {σ : List Row} {r' : Row} (h : r' ∈ stabilize_economy σ) :
    ∃ r ∈ σ, r' = r ∨
      (r'.key ∈ COMPRESSION_RELATIONS.map compTgt ∨
        r'.key ∈ ORE_FORTUNE_RELATIONS.map oreTgt ∨
        r'.key ∈ DEEPSLATE_PRICE_LINKS.map deepTgt) := by
  unfold stabilize_economy at h
  rw [stabilizeWith_eq] at h
  obtain ⟨r₂, hr₂, hc₂⟩ := mem_relPass _ _ _ h
  obtain ⟨r₁, hr₁, hc₁⟩ := mem_relPass _ _ _ hr₂
  obtain ⟨r₀, hr₀, hc₀⟩ := mem_relPass _ _ _ hr₁
  refine ⟨r₀, hr₀, ?_⟩
  rcases hc₂ with rfl | hk
  · rcases hc₁ with rfl | hk
    · rcases hc₀ with rfl | hk
      · exact Or.inl rfl
      · exact Or.inr (Or.inl hk)
    · exact Or.inr (Or.inr (Or.inl hk))
  · exact Or.inr (Or.inr (Or.inr hk))

theorem comp_targets_no_override :
    ∀ k ∈ COMPRESSION_RELATIONS.map compTgt,
      List.lookup k INTEGER_OVERRIDES = none := by decide

theorem ore_targets_no_override :
    ∀ k ∈ ORE_FORTUNE_RELATIONS.map oreTgt,
      List.lookup k INTEGER_OVERRIDES = none := by decide

theorem deep_targets_no_override :
    ∀ k ∈ DEEPSLATE_PRICE_LINKS.map deepTgt,
      List.lookup k INTEGER_OVERRIDES = none := by decide

theorem override_stab {σ : List Row} (h : overrideRespected σ) :
    overrideRespected (stabilize_economy σ) := by
  intro r' hr' tc p hlk hnu
  obtain ⟨r, hrm, hcase⟩ := mem_stab hr'
  rcases hcase with rfl | hk
  · exact h r' hrm tc p hlk hnu
  · exfalso
    rcases hk with hk | hk | hk
    · rw [comp_targets_no_override _ hk] at hlk
      exact Option.noConfusion hlk
    · rw [ore_targets_no_override _ hk] at hlk
      exact Option.noConfusion hlk
    · rw [deep_targets_no_override _ hk] at hlk
      exact Option.noConfusion hlk

theorem dump_override_compat :
    ∀ e ∈ ANTI_DUMP_MINIMUMS,
      (List.lookup e.1 INTEGER_OVERRIDES).all
        (fun o => e.2.1 == o.1 && max o.2 e.2.2 == o.2) = true := by decide

theorem override_dumpStep {σ : List Row} {e : String × Int × Int}
    (he : e ∈ ANTI_DUMP_MINIMUMS) (h : overrideRespected σ) :
    overrideRespected (dumpStep σ e) := by
  intro r' hr' tc p hlk hnu
  cases hlk2 : lookupRow σ e.1 with
  | none =>
    simp only [dumpStep, hlk2] at hr'
    exact h r' hr' tc p hlk hnu
  | some row =>
    cases hp : row.price_ars with
    | none =>
      simp only [dumpStep, hlk2, hp] at hr'
      exact h r' hr' tc p hlk hnu
    | some pf =>
      simp only [dumpStep, hlk2, hp] at hr'
      obtain ⟨r₀, hr₀, hmap⟩ := List.mem_map.mp hr'
      by_cases hk0 : (r₀.key == e.1) = true
      · rw [if_pos hk0] at hmap
        have hkey' : r'.key = e.1 := by
          rw [← hmap]
          simpa [beq_iff_eq] using hk0
        have hrowmem : row ∈ σ := List.mem_of_find?_eq_some hlk2
        have hrowkey : row.key = e.1 := lookupRow_found_key hlk2
        have hrowfacts := h row hrowmem tc p
          (by rw [hrowkey, ← hkey']; exact hlk)
          (by rw [hrowkey, ← hkey']; exact hnu)
        have hpf : pf = p := by
          rw [hrowfacts.2] at hp
          injection hp with hh
          exact hh.symm
        have hcompat := dump_override_compat e he
        rw [show List.lookup e.1 INTEGER_OVERRIDES = some (tc, p) from by
          rw [← hkey']; exact hlk] at hcompat
        simp only [Option.all_some, Bool.and_eq_true, beq_iff_eq] at hcompat
        constructor
        · rw [← hmap]
          exact hcompat.1
        · rw [← hmap]
          show some (max pf e.2.2) = some p
          rw [hpf, hcompat.2]
      · rw [if_neg hk0] at hmap
        rw [← hmap] at hlk hnu ⊢
        exact h r₀ hr₀ tc p hlk hnu

theorem override_dumpPass {σ : List Row} (h : overrideRespected σ) :
    overrideRespected (enforce_antidumping σ) := by
  unfold enforce_antidumping
  exact @foldl_preserve (String × Int × Int) (List Row) overrideRespected
    dumpStep ANTI_DUMP_MINIMUMS σ
    (fun b' e he hP => override_dumpStep he hP) h

theorem override_undefStep {σ : List Row} {k : String}
    (hk : k ∈ UNDEFINED_PRICE_KEYS) (h : overrideRespected σ) :
    overrideRespected (undefStep σ k) := by
  intro r' hr' tc p hlk hnu
  cases hlk2 : lookupRow σ k with
  | none =>
    simp only [undefStep, hlk2] at hr'
    exact h r' hr' tc p hlk hnu
  | some row =>
    simp only [undefStep, hlk2] at hr'
    obtain ⟨r₀, hr₀, hmap⟩ := List.mem_map.mp hr'
    by_cases hk0 : (r₀.key == k) = true
    · rw [if_pos hk0] at hmap
      exfalso
      apply hnu
      have hkk : r'.key = k := by
        rw [← hmap]
        simpa [beq_iff_eq] using hk0
      rw [hkk]
      exact hk
    · rw [if_neg hk0] at hmap
      rw [← hmap] at hlk hnu ⊢
      exact h r₀ hr₀ tc p hlk hnu

theorem override_undefPass {σ : List Row} (h : overrideRespected σ) :
    overrideRespected (apply_undefined_prices σ) := by
  unfold apply_undefined_prices
  exact @foldl_preserve String (List Row) overrideRespected
    undefStep UNDEFINED_PRICE_KEYS σ
    (fun b' k hk hP => override_undefStep hk hP) h

theorem custom_no_override :
    ∀ r ∈ CUSTOM_ITEMS, List.lookup r.key INTEGER_OVERRIDES = none := by decide

set_option maxRecDepth 8192 in
theorem book_no_override :
    ∀ r ∈ build_enchanted_book_items,
      List.lookup r.key INTEGER_OVERRIDES = none := by decide

/-- C4 (amended): for a key with a hard integer override, the final record
carries exactly the overridden `(trade_count, price)` pair — inference,
quantization, stabilization and anti-dumping never change it — unless the
key is also in the undefined-price set, in which case the undefined-price
pass, which runs after everything else, replaces the price with the
undefined marker (this is exactly what happens to `ghast_tear`). -/
theorem claim_C4_overrides {catalog : List Item} {ru : String → Option String}
    (hnd : (catalog.map Item.name).Nodup) {r : Row}
    (hr : r ∈ buildItems catalog ru) {tc p : Int}
    (hlk : List.lookup r.key INTEGER_OVERRIDES = some (tc, p))
    (hnu : r.key ∉ UNDEFINED_PRICE_KEYS) :
    r.trade_count = tc ∧ r.price_ars = some p := by
  rcases mem_buildItems hr with h | h | h
  · unfold pricedRows at h
    exact override_undefPass
      (override_dumpPass (override_stab (override_rawRows catalog ru)))
      r h tc p hlk hnu
  · rw [custom_no_override r h] at hlk
    exact Option.noConfusion hlk
  · rw [book_no_override r h] at hlk
    exact Option.noConfusion hlk

/-- The raw catalog record for the `netherite_ingot` scenario. -/
def ntItem : Item := ⟨2, "netherite_ingot", some 64, none⟩

/-- The record the pipeline produces for `netherite_ingot`: the override
`(1, 20)` survives stabilization and the anti-dumping minimum `(1, 20)`. -/
def ntRow : Row :=
  { id := 2, key := "netherite_ingot", name_ru := "Netherite Ingot",
    name_en := "Netherite Ingot", stack_size := 64,
    category := "Руды и ресурсы", obtainability := "Обычный",
    trade_count := 1, trade_label := "шт", price_ars := some 20,
    price_note := none, icon_key := none }

theorem ntRow_priced : pricedRows [ntItem] ruE = [ntRow] := by decide

theorem ntRow_mem : ntRow ∈ buildItems [ntItem] ruE := by
  unfold buildItems
  rw [List.mem_mergeSort]
  apply mem_mergeNew_base
  apply mem_mergeNew_base
  rw [ntRow_priced]
  exact List.mem_cons_self _ _

theorem claim_C4_witness :
    ([ntItem].map Item.name).Nodup ∧
    ntRow ∈ buildItems [ntItem] ruE ∧
    List.lookup ntRow.key INTEGER_OVERRIDES = some (1, 20) ∧
    ntRow.key ∉ UNDEFINED_PRICE_KEYS ∧
    (ntRow.trade_count = 1 ∧ ntRow.price_ars = some 20) :=
  ⟨by decide, ntRow_mem, by decide, by decide,
    claim_C4_overrides (by decide) ntRow_mem (by decide) (by decide)⟩

/-- C4 counterexample: `ghast_tear` carries the hard integer override
`(1, 2)`, yet its final output record does not carry price 2 — the
undefined-price pass, which runs later, erases it. -/
theorem claim_C4_counterexample :
    ∃ r, r ∈ buildItems [ghItem] ruE ∧
      List.lookup r.key INTEGER_OVERRIDES = some (1, 2) ∧
      r.price_ars ≠ some 2 :=
  ⟨ghRow, ghRow_mem, by decide, by decide⟩

theorem claim_C8_witness :
    (EXCLUDE_EXACT.contains "bedrock" = true ∨
      EXCLUDE_STARTS.any (fun s => strStarts "bedrock" s) = true ∨
      EXCLUDE_ENDS.any (fun s => strEnds "bedrock" s) = true) ∧
    ghRow ∈ buildItems [ghItem] ruE ∧ ghRow.key ≠ "bedrock" :=
  ⟨Or.inl (by decide), ghRow_mem,
    claim_C8_eligibility [ghItem] ruE "bedrock" (Or.inl (by decide))
      ghRow ghRow_mem⟩

/-! ### Positivity through every pipeline stage (C6) -/

/-- Every row of the working set has a positive trade count and, whenever its
price is defined, a positive price. -/
def posRows (σ : List Row) : Prop :=
  ∀ r ∈ σ, 1 ≤ r.trade_count ∧ 1 ≤ r.price_ars.getD 1

theorem round_price_pos (v : ℚ) : 1 ≤ round_price v := le_max_left 1 _

theorem ceil_price_pos (v : ℚ) : 1 ≤ ceil_price v := le_max_left 1 _

theorem trade_count_pos (name : String) (ss : Int) :
    1 ≤ (trade_count_and_label name ss).1 := by
  unfold trade_count_and_label
  split_ifs with h1 h2 h3 h4 <;> dsimp only <;> omega

theorem overrides_pos :
    ∀ x ∈ INTEGER_OVERRIDES, 1 ≤ x.2.1 ∧ 1 ≤ x.2.2 := by decide

theorem dump_tc_pos : ∀ e ∈ ANTI_DUMP_MINIMUMS, 1 ≤ e.2.1 := by decide

theorem infer_offer_pos (it : Item) :
    1 ≤ (infer_integer_offer it).1 ∧ 1 ≤ (infer_integer_offer it).2.2 := by
  unfold infer_integer_offer
  cases hlk : List.lookup it.name INTEGER_OVERRIDES with
  | some tp =>
    rcases tp with ⟨tc, p⟩
    exact overrides_pos _ (lookup_mem_pairs hlk)
  | none =>
    dsimp only
    obtain ⟨tcv, lblv, he⟩ :
        ∃ a b, trade_count_and_label it.name (it.stackSize.getD 64) = (a, b) :=
      ⟨_, _, rfl⟩
    rw [he]
    dsimp only
    refine ⟨?_, round_price_pos _⟩
    have h := trade_count_pos it.name (it.stackSize.getD 64)
    rw [he] at h
    exact h

theorem pos_updPrice {σ : List Row} {k : String} {p : Int}
    (h : posRows σ) (hp : 1 ≤ p) : posRows (updPrice σ k p) := by
  intro r' hr'
  obtain ⟨r, hr, hcase⟩ := mem_updPrice hr'
  rcases hcase with heq | ⟨-, heq⟩
  · rw [heq]
    exact h r hr
  · rw [heq]
    exact ⟨(h r hr).1, hp⟩

theorem pos_relStep {ρ : Type} (srcOf tgtOf : ρ → String)
    (valOf : ρ → Row → Row → Int)
    (hval : ∀ r s t, 1 ≤ valOf r s t) {σ : List Row} (h : posRows σ)
    (r : ρ) : posRows (relStep srcOf tgtOf valOf σ r) := by
  intro r' hr'
  unfold relStep at hr'
  cases hs : lookupRow σ (srcOf r) with
  | none =>
    rw [hs] at hr'
    exact h r' hr'
  | some s =>
    rw [hs] at hr'
    cases ht : lookupRow σ (tgtOf r) with
    | none =>
      rw [ht] at hr'
      exact h r' hr'
    | some t =>
      rw [ht] at hr'
      exact pos_updPrice h (hval r s t) r' hr'

theorem pos_relPass {ρ : Type} (srcOf tgtOf : ρ → String)
    (valOf : ρ → Row → Row → Int)
    (hval : ∀ r s t, 1 ≤ valOf r s t) {σ : List Row} (h : posRows σ)
    (rels : List ρ) : posRows (relPass srcOf tgtOf valOf rels σ) := by
  unfold relPass
  exact @foldl_preserve ρ (List Row) posRows (relStep srcOf tgtOf valOf) rels σ
    (fun σ' r _ hP => pos_relStep srcOf tgtOf valOf hval hP r) h

theorem compVal_pos :
    ∀ (x : String × String × ℚ) (s t : Row), 1 ≤ compVal x s t :=
  fun _ _ _ => round_price_pos _

theorem oreVal_pos :
    ∀ (x : String × String × ℚ) (s t : Row), 1 ≤ oreVal x s t :=
  fun _ _ t => le_trans (ceil_price_pos _) (le_max_right (t.price_ars.getD 0) _)

theorem deepVal_pos :
    ∀ (x : String × String) (s t : Row), 1 ≤ deepVal x s t :=
  fun _ _ t => le_trans (ceil_price_pos _) (le_max_right (t.price_ars.getD 0) _)

theorem pos_rawRows (catalog : List Item) (ru : String → Option String) :
    posRows (rawRows catalog ru) := by
  intro r hr
  obtain ⟨it, _, heq⟩ := List.mem_map.mp hr
  rw [← heq]
  exact ⟨(infer_offer_pos it).1, (infer_offer_pos it).2⟩

theorem pos_stab {σ : List Row} (h : posRows σ) :
    posRows (stabilize_economy σ) := by
  unfold stabilize_economy
  rw [stabilizeWith_eq]
  exact pos_relPass _ _ _ deepVal_pos
    (pos_relPass _ _ _ oreVal_pos
      (pos_relPass _ _ _ compVal_pos h _) _) _

theorem pos_dumpStep {σ : List Row} (h : posRows σ) {e : String × Int × Int}
    (he : e ∈ ANTI_DUMP_MINIMUMS) : posRows (dumpStep σ e) := by
  intro r' hr'
  cases hlk : lookupRow σ e.1 with
  | none =>
    simp only [dumpStep, hlk] at hr'
    exact h r' hr'
  | some row =>
    cases hp : row.price_ars with
    | none =>
      simp only [dumpStep, hlk, hp] at hr'
      exact h r' hr'
    | some p =>
      simp only [dumpStep, hlk, hp] at hr'
      obtain ⟨r, hr, hmap⟩ := List.mem_map.mp hr'
      by_cases hk : (r.key == e.1) = true
      · rw [if_pos hk] at hmap
        rw [← hmap]
        refine ⟨dump_tc_pos e he, ?_⟩
        have hrow : row ∈ σ := List.mem_of_find?_eq_some hlk
        have hpp : 1 ≤ p := by
          have h2 := (h row hrow).2
          rw [hp] at h2
          exact h2
        exact le_trans hpp (le_max_left p e.2.2)
      · rw [if_neg hk] at hmap
        rw [← hmap]
        exact h r hr

theorem pos_undefStep {σ : List Row} (h : posRows σ) (k : String) :
    posRows (undefStep σ k) := by
  intro r' hr'
  cases hlk : lookupRow σ k with
  | none =>
    simp only [undefStep, hlk] at hr'
    exact h r' hr'
  | some row =>
    simp only [undefStep, hlk] at hr'
    obtain ⟨r, hr, hmap⟩ := List.mem_map.mp hr'
    by_cases hk : (r.key == k) = true
    · rw [if_pos hk] at hmap
      rw [← hmap]
      exact ⟨le_refl 1, le_refl 1⟩
    · rw [if_neg hk] at hmap
      rw [← hmap]
      exact h r hr

theorem pos_dumpPass {σ : List Row} (h : posRows σ) :
    posRows (enforce_antidumping σ) := by
  unfold enforce_antidumping
  exact @foldl_preserve (String × Int × Int) (List Row) posRows dumpStep
    ANTI_DUMP_MINIMUMS σ (fun σ' e he hP => pos_dumpStep hP he) h

theorem pos_undefPass {σ : List Row} (h : posRows σ) :
    posRows (apply_undefined_prices σ) := by
  unfold apply_undefined_prices
  exact @foldl_preserve String (List Row) posRows undefStep
    UNDEFINED_PRICE_KEYS σ (fun σ' k _ hP => pos_undefStep hP k) h

theorem custom_pos :
    ∀ r ∈ CUSTOM_ITEMS, 1 ≤ r.trade_count ∧ 1 ≤ r.price_ars.getD 1 := by
  decide

theorem bookRows_pos (v : Variant) (nid : Int) :
    ∀ r ∈ bookRows v nid, 1 ≤ r.trade_count ∧ 1 ≤ r.price_ars.getD 1 := by
  intro r hr
  obtain ⟨i, _, heq⟩ := List.mem_map.mp hr
  rw [← heq]
  exact ⟨le_refl 1, round_price_pos _⟩

theorem buildBooksAux_pos (l : List Variant) :
    ∀ (nid : Int), ∀ r ∈ buildBooksAux l nid,
      1 ≤ r.trade_count ∧ 1 ≤ r.price_ars.getD 1 := by
  induction l with
  | nil =>
    intro nid r hr
    simp [buildBooksAux] at hr
  | cons v vs ih =>
    intro nid r hr
    simp only [buildBooksAux] at hr
    rcases List.mem_append.mp hr with hin | hin
    · exact bookRows_pos v nid r hin
    · exact ih _ r hin

theorem books_pos :
    ∀ r ∈ build_enchanted_book_items,
      1 ≤ r.trade_count ∧ 1 ≤ r.price_ars.getD 1 :=
  fun r hr => buildBooksAux_pos ENCHANTED_BOOK_VARIANTS 210000 r hr

/-- C6: positivity invariant — after every pipeline stage (raw per-item
inference and quantization, stabilization, anti-dumping, undefined-price
forcing, and the merged-and-sorted final list), every row has
`trade_count ≥ 1`, and its price is at least 1 whenever it is defined
(`getD 1` returns the price when it is present and a vacuous 1 when it is the
undefined marker). -/
theorem claim_C6_positivity (catalog : List Item) (ru : String → Option String)
    (r : Row)
    (hr : r ∈ rawRows catalog ru ∨
      r ∈ stabilize_economy (rawRows catalog ru) ∨
      r ∈ enforce_antidumping (stabilize_economy (rawRows catalog ru)) ∨
      r ∈ pricedRows catalog ru ∨
      r ∈ buildItems catalog ru) :
    1 ≤ r.trade_count ∧ 1 ≤ r.price_ars.getD 1 := by
  have h0 := pos_rawRows catalog ru
  have h1 := pos_stab h0
  have h2 := pos_dumpPass h1
  have h3 : posRows (pricedRows catalog ru) := pos_undefPass h2
  rcases hr with h | h | h | h | h
  · exact h0 r h
  · exact h1 r h
  · exact h2 r h
  · exact h3 r h
  · rcases mem_buildItems h with hh | hh | hh
    · exact h3 r hh
    · exact custom_pos r hh
    · exact books_pos r hh

theorem claim_C6_witness :
    rowOfItem ntItem ruE ∈ rawRows [ntItem] ruE ∧
      (1 ≤ (rowOfItem ntItem ruE).trade_count ∧
        1 ≤ (rowOfItem ntItem ruE).price_ars.getD 1) :=
  ⟨by decide,
    claim_C6_positivity [ntItem] ruE (rowOfItem ntItem ruE) (Or.inl (by decide))⟩

/-! ### Determinism and ordering (C7) -/

theorem rowLE_iff {a b : Row} :
    rowLE a b = true ↔
      a.category < b.category ∨
        (a.category = b.category ∧ a.name_ru ≤ b.name_ru) := by
  simp [rowLE, Bool.or_eq_true, Bool.and_eq_true, decide_eq_true_iff, beq_iff_eq]

theorem rowLE_trans :
    ∀ (a b c : Row), rowLE a b = true → rowLE b c = true → rowLE a c = true := by
  intro a b c hab hbc
  rw [rowLE_iff] at hab hbc ⊢
  rcases hab with h1 | ⟨h1, h1'⟩ <;> rcases hbc with h2 | ⟨h2, h2'⟩
  · exact Or.inl (lt_trans h1 h2)
  · exact Or.inl (h2 ▸ h1)
  · refine Or.inl ?_
    rw [h1]
    exact h2
  · exact Or.inr ⟨h1.trans h2, le_trans h1' h2'⟩

theorem rowLE_total : ∀ (a b : Row), (rowLE a b || rowLE b a) = true := by
  intro a b
  rw [Bool.or_eq_true, rowLE_iff, rowLE_iff]
  rcases lt_trichotomy a.category b.category with h | h | h
  · exact Or.inl (Or.inl h)
  · rcases le_total a.name_ru b.name_ru with hle | hle
    · exact Or.inl (Or.inr ⟨h, hle⟩)
    · exact Or.inr (Or.inr ⟨h.symm, hle⟩)
  · exact Or.inr (Or.inl h)

theorem comp_tgt_cases :
    ∀ x ∈ COMPRESSION_RELATIONS, ∀ y ∈ COMPRESSION_RELATIONS,
      compTgt x = compTgt y ∨
        (compTgt x ≠ compTgt y ∧ compSrc x ≠ compTgt y ∧
          compSrc y ≠ compTgt x) := by
  decide

theorem ore_tgt_cases :
    ∀ x ∈ ORE_FORTUNE_RELATIONS, ∀ y ∈ ORE_FORTUNE_RELATIONS,
      oreTgt x = oreTgt y ∨
        (oreTgt x ≠ oreTgt y ∧ oreSrc x ≠ oreTgt y ∧ oreSrc y ≠ oreTgt x) := by
  decide

theorem deep_tgt_cases :
    ∀ x ∈ DEEPSLATE_PRICE_LINKS, ∀ y ∈ DEEPSLATE_PRICE_LINKS,
      deepTgt x = deepTgt y ∨
        (deepTgt x ≠ deepTgt y ∧ deepSrc x ≠ deepTgt y ∧
          deepSrc y ≠ deepTgt x) := by
  decide

theorem comp_comm_cases :
    ∀ x ∈ COMPRESSION_RELATIONS, ∀ y ∈ COMPRESSION_RELATIONS,
      x = y ∨ (compTgt x ≠ compTgt y ∧ compSrc x ≠ compTgt y ∧
        compSrc y ≠ compTgt x) := by
  intro x hx y hy
  rcases comp_tgt_cases x hx y hy with heq | hne
  · exact Or.inl (List.inj_on_of_nodup_map comp_tgt_nodup hx hy heq)
  · exact Or.inr hne

theorem ore_comm_cases :
    ∀ x ∈ ORE_FORTUNE_RELATIONS, ∀ y ∈ ORE_FORTUNE_RELATIONS,
      x = y ∨ (oreTgt x ≠ oreTgt y ∧ oreSrc x ≠ oreTgt y ∧
        oreSrc y ≠ oreTgt x) := by
  intro x hx y hy
  rcases ore_tgt_cases x hx y hy with heq | hne
  · exact Or.inl (List.inj_on_of_nodup_map ore_tgt_nodup hx hy heq)
  · exact Or.inr hne

theorem deep_comm_cases :
    ∀ x ∈ DEEPSLATE_PRICE_LINKS, ∀ y ∈ DEEPSLATE_PRICE_LINKS,
      x = y ∨ (deepTgt x ≠ deepTgt y ∧ deepSrc x ≠ deepTgt y ∧
        deepSrc y ≠ deepTgt x) := by
  intro x hx y hy
  rcases deep_tgt_cases x hx y hy with heq | hne
  · exact Or.inl (List.inj_on_of_nodup_map deep_tgt_nodup hx hy heq)
  · exact Or.inr hne

theorem stabilizeWith_perm (comps ores : List (String × String × ℚ))
    (deeps : List (String × String)) (rows : List Row)
    (hc : comps.Perm COMPRESSION_RELATIONS)
    (ho : ores.Perm ORE_FORTUNE_RELATIONS)
    (hd : deeps.Perm DEEPSLATE_PRICE_LINKS) :
    stabilizeWith comps ores deeps rows = stabilize_economy rows := by
  unfold stabilize_economy
  rw [stabilizeWith_eq, stabilizeWith_eq]
  have e1 : relPass compSrc compTgt compVal comps rows
      = relPass compSrc compTgt compVal COMPRESSION_RELATIONS rows :=
    relPass_perm compSrc compTgt compVal hc
      (fun x hx y hy => comp_comm_cases x (hc.subset hx) y (hc.subset hy)) rows
  have e2 : ∀ σ, relPass oreSrc oreTgt oreVal ores σ
      = relPass oreSrc oreTgt oreVal ORE_FORTUNE_RELATIONS σ :=
    fun σ => relPass_perm oreSrc oreTgt oreVal ho
      (fun x hx y hy => ore_comm_cases x (ho.subset hx) y (ho.subset hy)) σ
  have e3 : ∀ σ, relPass deepSrc deepTgt deepVal deeps σ
      = relPass deepSrc deepTgt deepVal DEEPSLATE_PRICE_LINKS σ :=
    fun σ => relPass_perm deepSrc deepTgt deepVal hd
      (fun x hx y hy => deep_comm_cases x (hd.subset hx) y (hd.subset hy)) σ
  rw [e1, e2, e3]

/-- C7: determinism and ordering — the final list is sorted by
`(category, name_ru)` under the total comparison `rowLE` (so a pure run is a
function of its inputs alone), and the stabilization result does not depend on
the iteration order of the three relation tables: any permutation of them
yields exactly `stabilize_economy`. -/
theorem claim_C7_determinism :
    (∀ (catalog : List Item) (ru : String → Option String),
      (buildItems catalog ru).Pairwise (fun a b => rowLE a b = true)) ∧
    (∀ (comps ores : List (String × String × ℚ))
        (deeps : List (String × String)) (rows : List Row),
      comps.Perm COMPRESSION_RELATIONS → ores.Perm ORE_FORTUNE_RELATIONS →
      deeps.Perm DEEPSLATE_PRICE_LINKS →
      stabilizeWith comps ores deeps rows = stabilize_economy rows) := by
  constructor
  · intro catalog ru
    unfold buildItems
    exact List.sorted_mergeSort rowLE_trans rowLE_total _
  · intro comps ores deeps rows hc ho hd
    exact stabilizeWith_perm comps ores deeps rows hc ho hd

theorem claim_C7_witness :
    (buildItems [ntItem] ruE).Pairwise (fun a b => rowLE a b = true) ∧
      stabilizeWith COMPRESSION_RELATIONS.reverse ORE_FORTUNE_RELATIONS.reverse
        DEEPSLATE_PRICE_LINKS.reverse [] = stabilize_economy [] :=
  ⟨claim_C7_determinism.1 [ntItem] ruE,
    claim_C7_determinism.2 COMPRESSION_RELATIONS.reverse
      ORE_FORTUNE_RELATIONS.reverse DEEPSLATE_PRICE_LINKS.reverse []
      (List.reverse_perm _) (List.reverse_perm _) (List.reverse_perm _)⟩

end WindBuild
